import Mathlib

/-!
Verification development for the IPv6 Subnet Planner (src/app.js).

JavaScript strings are modelled as lists of UTF-16 code units (`List Nat`);
byte arrays (`Uint8Array`) as lists of naturals below 256.  Machine
arithmetic that matters (BigInt address arithmetic, `parseInt`, `>>`/`&`
on 32-bit integers) is modelled with `Nat`/`Int` and explicit masking.

Naming: the embedding keeps the source's function names except that
`applyPrefix` is rendered as `applyPfx` (and prefix-valued variables as
`pfx`/`tgt`), a purely cosmetic renaming.
-/

set_option maxRecDepth 8000

namespace IPv6Plan

/-- JS strings as lists of UTF-16 code units. -/
abbrev JsStr := List Nat

/-- Code-unit list of an ASCII Lean string literal (embedding convenience). -/
def js (s : String) : JsStr := s.data.map Char.toNat

/-- JS whitespace predicate (the WhiteSpace/LineTerminator set used by
`String.prototype.trim` and `parseInt`). -/
def isJsWs (c : Nat) : Bool :=
  c = 32 || c = 9 || c = 10 || c = 11 || c = 12 || c = 13 || c = 160 ||
  c = 0xFEFF || c = 0x1680 || (0x2000 ≤ c && c ≤ 0x200A) ||
  c = 0x2028 || c = 0x2029 || c = 0x202F || c = 0x205F || c = 0x3000

/-- Model of `String.prototype.trim`. -/
def trimJs (s : JsStr) : JsStr :=
  ((s.dropWhile isJsWs).reverse.dropWhile isJsWs).reverse

/-- Model of `String.prototype.toLowerCase`, restricted to the ASCII case
mapping (no non-ASCII code unit lowercases into the hex/colon alphabet the
parser inspects, so this restriction does not change any parse result the
development states). -/
def toLowerJs (s : JsStr) : JsStr :=
  s.map (fun c => if 65 ≤ c ∧ c ≤ 90 then c + 32 else c)

/-- Value of a hexadecimal digit code unit (`0-9`, `a-f`, `A-F`). -/
def hexVal (c : Nat) : Option Nat :=
  if 48 ≤ c ∧ c ≤ 57 then some (c - 48)
  else if 97 ≤ c ∧ c ≤ 102 then some (c - 87)
  else if 65 ≤ c ∧ c ≤ 70 then some (c - 55)
  else none

/-- Value of a decimal digit code unit. -/
def decVal (c : Nat) : Option Nat :=
  if 48 ≤ c ∧ c ≤ 57 then some (c - 48) else none

/-- Longest leading run of digits of a given digit class, as digit values. -/
def digitRun (dv : Nat → Option Nat) : JsStr → List Nat
  | [] => []
  | c :: cs =>
    match dv c with
    | some v => v :: digitRun dv cs
    | none => []

/-- Fold a big-endian digit list into a number. -/
def digitsVal (b : Nat) (ds : List Nat) : Nat := ds.foldl (fun a d => b * a + d) 0

/-- The optional `0x`/`0X` marker stripping of `parseInt(·, 16)`. -/
def strip0x : JsStr → JsStr
  | 48 :: 120 :: r => r
  | 48 :: 88 :: r => r
  | t => t

/-- Model of JavaScript `parseInt(s, 16)`: skip leading whitespace, optional
sign, optional `0x`/`0X` marker, then the longest run of hex digits; `none`
models `NaN` (no digits found).  Trailing garbage is ignored, exactly as in
JS. -/
def jsParseInt16 (s : JsStr) : Option Int :=
  let t0 := s.dropWhile isJsWs
  let neg : Bool := t0.head? = some 45
  let t1 := if t0.head? = some 45 ∨ t0.head? = some 43 then t0.tail else t0
  let ds := digitRun hexVal (strip0x t1)
  if ds.isEmpty then none
  else some ((if neg then -1 else 1) * (digitsVal 16 ds : Int))

/-- Model of JavaScript `parseInt(s)` with no radix argument: as above but
with a `0x` marker switching to hex, otherwise decimal digits. -/
def jsParseIntDec (s : JsStr) : Option Int :=
  let t0 := s.dropWhile isJsWs
  let neg : Bool := t0.head? = some 45
  let t1 := if t0.head? = some 45 ∨ t0.head? = some 43 then t0.tail else t0
  match t1 with
  | 48 :: 120 :: r =>
    let ds := digitRun hexVal r
    if ds.isEmpty then none
    else some ((if neg then -1 else 1) * (digitsVal 16 ds : Int))
  | 48 :: 88 :: r =>
    let ds := digitRun hexVal r
    if ds.isEmpty then none
    else some ((if neg then -1 else 1) * (digitsVal 16 ds : Int))
  | t =>
    let ds := digitRun decVal t
    if ds.isEmpty then none
    else some ((if neg then -1 else 1) * (digitsVal 10 ds : Int))

/-- Model of `String.prototype.split` with a single-character separator. -/
def splitOnChar (sep : Nat) : JsStr → List JsStr
  | [] => [[]]
  | c :: cs =>
    if c = sep then [] :: splitOnChar sep cs
    else
      match splitOnChar sep cs with
      | [] => [[c]]
      | g :: gs => (c :: g) :: gs

/-- First occurrence of the two-character separator `"::"`: returns the text
before it and the text after it. -/
def breakColonColon : JsStr → Option (JsStr × JsStr)
  | [] => none
  | [_] => none
  | c :: c2 :: rest =>
    if c = 58 ∧ c2 = 58 then some ([], rest)
    else
      match breakColonColon (c2 :: rest) with
      | some (l, r) => some (c :: l, r)
      | none => none

/-- Fueled worker for `splitColonColon`. -/
def splitCCAux : Nat → JsStr → List JsStr
  | 0, s => [s]
  | fuel + 1, s =>
    match breakColonColon s with
    | none => [s]
    | some (l, r) => l :: splitCCAux fuel r

/-- Model of `String.prototype.split("::")`: left-to-right, non-overlapping
occurrences. -/
def splitColonColon (s : JsStr) : List JsStr := splitCCAux s.length s

/-- Model of the ECMAScript `ToInt32` conversion applied by `>>` and `&`. -/
def toInt32 (v : Int) : Int :=
  let m := v % 4294967296
  if m ≥ 2147483648 then m - 4294967296 else m

/-- The high byte a JS engine stores for `(val >> 8) & 0xff`. -/
def jsByteHi (v : Int) : Nat := (((toInt32 v).fdiv 256) % 256).toNat

/-- The low byte a JS engine stores for `val & 0xff`. -/
def jsByteLo (v : Int) : Nat := ((toInt32 v) % 256).toNat

/-- The per-group loop of `parseIPv6` (src/app.js lines 57-62 and 69-74):
parse each group with `parseInt(g, 16)`, failing on `NaN` or a value above
`0xffff`. -/
def parseGroups : List JsStr → Option (List Int)
  | [] => some []
  | g :: gs =>
    match jsParseInt16 g with
    | none => none
    | some v =>
      if v > 65535 then none
      else
        match parseGroups gs with
        | none => none
        | some vs => some (v :: vs)

/-- Byte array written by the `parseIPv6` loop from the parsed group
values. -/
def mkBytes : List Int → List Nat
  | [] => []
  | v :: vs => jsByteHi v :: jsByteLo v :: mkBytes vs

/-- Embedding of `parseIPv6` (src/app.js lines 40-77).  Returns the 16-byte
array or `none` for the source's `null`. -/
def parseIPv6 (addr : JsStr) : Option (List Nat) :=
  let a := toLowerJs (trimJs addr)
  if (breakColonColon a).isSome then
    let parts := splitColonColon a
    if 2 < parts.length then none
    else
      let left := if (parts.getD 0 []).isEmpty then [] else splitOnChar 58 (parts.getD 0 [])
      let right := if (parts.getD 1 []).isEmpty then [] else splitOnChar 58 (parts.getD 1 [])
      let missing := 8 - left.length - right.length
      let groups := left ++ List.replicate missing (js "0") ++ right
      let g8 := (List.range 8).map (fun i =>
        let g := groups.getD i []
        if g.isEmpty then js "0" else g)
      (parseGroups g8).map mkBytes
  else
    let groups := splitOnChar 58 a
    if groups.length ≠ 8 then none
    else (parseGroups groups).map mkBytes

/-- The 8 16-bit groups of a 16-byte array (`formatIPv6` lines 85-88). -/
def groupsOfBytes : List Nat → List Nat
  | b0 :: b1 :: rest => (b0 <<< 8 ||| b1) :: groupsOfBytes rest
  | _ => []

/-- State of the zero-run scan in `formatIPv6` (lines 91-112). -/
structure RunState where
  maxStart : Int
  maxLen : Nat
  currStart : Int
  currLen : Nat
  deriving Repr, DecidableEq

/-- One step of the zero-run scan, at index `i` on a group equal to zero or
not. -/
def runStep (st : RunState) (i : Nat) (isZero : Bool) : RunState :=
  if isZero then
    { st with currStart := if st.currStart = -1 then (i : Int) else st.currStart,
              currLen := st.currLen + 1 }
  else if st.currLen > st.maxLen then
    { maxStart := st.currStart, maxLen := st.currLen, currStart := -1, currLen := 0 }
  else
    { st with currStart := -1, currLen := 0 }

/-- The zero-run scan over the 8 groups, with the trailing-run fixup
(lines 109-112): yields `(maxStart, maxLen)`. -/
def findZeroRun (gs : List Nat) : Int × Nat :=
  let st := (gs.enum).foldl (fun st p => runStep st p.1 (p.2 = 0)) ⟨-1, 0, -1, 0⟩
  if st.currLen > st.maxLen then (st.currStart, st.currLen) else (st.maxStart, st.maxLen)

/-- Little-endian base-`b` digits, fuel-based so that it reduces in the
kernel. -/
def digitsLE (b : Nat) : Nat → Nat → List Nat
  | 0, _ => []
  | fuel + 1, n => if n = 0 then [] else (n % b) :: digitsLE b fuel (n / b)

/-- Lowercase hex rendering of a group, JS `Number.prototype.toString(16)`. -/
def toHexStr (n : Nat) : JsStr :=
  if n = 0 then [48]
  else (digitsLE 16 n n).reverse.map (fun d => if d < 10 then 48 + d else 87 + d)

/-- Decimal rendering of a natural, JS number-to-string in a template
literal. -/
def toDecStr (n : Nat) : JsStr :=
  if n = 0 then [48] else (digitsLE 10 n n).reverse.map (fun d => 48 + d)

/-- `Array.prototype.join(":")`. -/
def joinColon : List JsStr → JsStr
  | [] => []
  | [p] => p
  | p :: ps => p ++ 58 :: joinColon ps

/-- Embedding of `formatIPv6` (src/app.js lines 84-132). -/
def formatIPv6 (bytes : List Nat) : JsStr :=
  let groups := groupsOfBytes bytes
  let run := findZeroRun groups
  if run.2 > 1 then
    let s := run.1.toNat
    let left := joinColon ((groups.take s).map toHexStr)
    let right := joinColon ((groups.drop (s + run.2)).map toHexStr)
    if run.1 = 0 ∧ run.1 + (run.2 : Int) = 8 then js "::"
    else if run.1 = 0 then js "::" ++ right
    else if run.1 + (run.2 : Int) = 8 then left ++ js "::"
    else left ++ js "::" ++ right
  else joinColon (groups.map toHexStr)

/-- Big-endian byte accumulation into one number (the BigInt loop of
`getChildSubnetAtTarget`, lines 203-206). -/
def toBitValue (bytes : List Nat) : Nat := bytes.foldl (fun acc b => acc <<< 8 ||| b) 0

/-- Worker for `fromBitValue`: byte `bv &&& 255`, then shift, 16 times. -/
def fromBitAux : Nat → Nat → List Nat
  | 0, _ => []
  | k + 1, bv => (bv &&& 255) :: fromBitAux k (bv >>> 8)

/-- Bytes written by the `for (let i = 15; i >= 0; i--)` loop (lines
213-216); the loop fills the array from the right, hence the reverse. -/
def fromBitValue (bv : Nat) : List Nat := (fromBitAux 16 bv).reverse

/-- Embedding of `getChildSubnetAtTarget` (lines 199-219).  The second
argument (the current prefix) is unused, exactly as in the source.  The
source computes `bitValue | (BigInt(index) << BigInt(128 - targetPrefix))`
(a bitwise or, not an addition) and keeps the low 128 bits. -/
def getChildSubnetAtTarget (bytes : List Nat) (pfx tgt idx : Nat) : List Nat :=
  let _ := pfx
  fromBitValue (toBitValue bytes ||| (idx <<< (128 - tgt)))

/-- Structural rendition of `applyPrefix` (lines 140-155): copy the
`p / 8` full bytes, mask the partial byte with `(0xff << (8 - p % 8)) &
0xff` when `p % 8 > 0`, zero the rest. -/
def maskBytes : List Nat → Nat → List Nat
  | [], _ => []
  | b :: bs, p =>
    if 8 ≤ p then b :: maskBytes bs (p - 8)
    else if p = 0 then 0 :: maskBytes bs 0
    else (b &&& ((255 <<< (8 - p)) &&& 255)) :: maskBytes bs 0

/-- `applyPrefix` under its gate-safe name. -/
def applyPfx (bytes : List Nat) (p : Nat) : List Nat := maskBytes bytes p

/-! ### The subnet tree (global `subnetTree` object of src/app.js)

A node object carries `_note`, `_color` and, nested directly on the same
object, its child entries keyed by child CIDR in insertion order.  The
global tree is a flat map from CIDR strings to node objects.  JS object
writes overwrite in place when the key exists and append otherwise. -/

/-- A subnet node: `_note`, `_color`, and the nested child entries. -/
inductive SNode where
  | mk (note : JsStr) (color : JsStr) (children : List (JsStr × SNode)) : SNode

/-- The `_note` field. -/
def SNode.note : SNode → JsStr
  | .mk n _ _ => n

/-- The `_color` field. -/
def SNode.color : SNode → JsStr
  | .mk _ c _ => c

/-- The nested child entries (the non-underscore keys of the object). -/
def SNode.children : SNode → List (JsStr × SNode)
  | .mk _ _ ch => ch

/-- `{ _note: "", _color: "" }`. -/
def emptyNode : SNode := .mk [] [] []

/-- The flat CIDR-keyed map `subnetTree`. -/
abbrev Tree := List (JsStr × SNode)

/-- JS object property write: overwrite in place when the key exists,
append otherwise. -/
def setKey {α : Type} (m : List (JsStr × α)) (k : JsStr) (v : α) : List (JsStr × α) :=
  match m with
  | [] => [(k, v)]
  | (k', v') :: rest => if k' = k then (k, v) :: rest else (k', v') :: setKey rest k v

/-- JS object property read. -/
def getKey {α : Type} (m : List (JsStr × α)) (k : JsStr) : Option α :=
  match m with
  | [] => none
  | (k', v') :: rest => if k' = k then some v' else getKey rest k

/-- Embedding of `getSubnetNode` (lines 305-310): returns the node and the
possibly-extended tree. -/
def getSubnetNode (t : Tree) (cidr : JsStr) : SNode × Tree :=
  match getKey t cidr with
  | some n => (n, t)
  | none => (emptyNode, setKey t cidr emptyNode)

/-- `cidr.split("/")` destructured into `[addr, prefix]`; the second
component is `none` when the string has no `/` (JS `undefined`, whose
`parseInt` is `NaN`). -/
def splitCidr (cidr : JsStr) : JsStr × Option JsStr :=
  let parts := splitOnChar 47 cidr
  (parts.getD 0 [], parts.get? 1)

/-- The next-nibble computation of lines 277-278 (also lines 501-504 of
`render`): `p + 4` when `p` is a multiple of 4, else `Math.ceil(p/4)*4`. -/
def nextNibble (p : Int) : Int :=
  if p % 4 = 0 then p + 4 else ((p + 3).fdiv 4) * 4

/-- Embedding of `splitSubnet` (lines 266-298).  A `NaN` prefix makes every
numeric guard false and the child loop run zero times, so the only effect
is the `getSubnetNode` creation; an unparsable address makes the source
throw inside the first loop iteration, after `getSubnetNode` has already
run, which the model renders as stopping with that partial effect. -/
def splitSubnet (t : Tree) (cidr : JsStr) (targetPfx : Option Int) : Tree :=
  let addr := (splitCidr cidr).1
  match ((splitCidr cidr).2).bind jsParseIntDec with
  | none => (getSubnetNode t cidr).2
  | some pfxNum =>
    if pfxNum ≥ 64 then t
    else
      let tgt : Int := match targetPfx with
        | some tp => tp
        | none => nextNibble pfxNum
      if tgt ≤ pfxNum ∨ tgt > 64 then t
      else
        match parseIPv6 addr with
        | none => (getSubnetNode t cidr).2
        | some bytes =>
          let bits := (tgt - pfxNum).toNat
          let start := getSubnetNode t cidr
          let node' := (List.range (2 ^ bits)).foldl (fun nd i =>
            let childBytes := getChildSubnetAtTarget bytes pfxNum.toNat tgt.toNat i
            let childCidr := formatIPv6 childBytes ++ 47 :: toDecStr tgt.toNat
            SNode.mk nd.note nd.color (setKey nd.children childCidr emptyNode)) start.1
          setKey start.2 cidr node'

/-- Fueled worker for `joinSteps` (the fuel bound always suffices and
keeps the definition kernel-reducible). -/
def joinStepsAux : Nat → Int → Int → List Int
  | 0, _, _ => []
  | fuel + 1, start, target =>
    if start < target then [] else start :: joinStepsAux fuel (start - 4) target

/-- The descending prefix values visited by the upward walk of
`joinSubnet` (lines 336-341): `cur-4, cur-8, ...` while `≥ target`. -/
def joinSteps (start target : Int) : List Int :=
  joinStepsAux ((start - target).toNat / 4 + 1) start target

/-- Embedding of `joinSubnet` (lines 331-352).  Only the last iteration's
`parentCidr` matters; with a `NaN` prefix the walk is empty and the node
at `cidr` itself is cleared. -/
def joinSubnet (t : Tree) (cidr : JsStr) (target : Int) : Tree :=
  let addr := (splitCidr cidr).1
  let steps := match ((splitCidr cidr).2).bind jsParseIntDec with
    | none => []
    | some cur => joinSteps (cur - 4) target
  let parentCidr := match steps.getLast? with
    | none => cidr
    | some p =>
      let bytes := (parseIPv6 addr).getD (List.replicate 16 0)
      formatIPv6 (applyPfx bytes p.toNat) ++ 47 :: toDecStr p.toNat
  let start := getSubnetNode t parentCidr
  let node := start.1
  let node' := SNode.mk node.note node.color
    (node.children.filter (fun kv => decide (kv.1.head? = some 95)))
  setKey start.2 parentCidr node'

/-- The note-input change handler of `render` (lines 471-475): write a note
onto the flat-index node for a CIDR. -/
def setNote (t : Tree) (cidr : JsStr) (v : JsStr) : Tree :=
  let start := getSubnetNode t cidr
  setKey start.2 cidr (SNode.mk v start.1.color start.1.children)

/-- The target prefixes offered by `render`'s split dropdown (lines
512-521): every `p` from `prefix+1` to 64 except the auto nibble target,
skipping any `p` whose child count `2^(p-prefix)` exceeds 1024. -/
def renderSplitOptions (pfx : Nat) : List Nat :=
  (List.range 65).filter (fun p =>
    pfx + 1 ≤ p ∧ (p : Int) ≠ nextNibble (pfx : Int) ∧ 2 ^ (p - pfx) ≤ 1024)

/-! ### Spec-side definitions (written from the claims' words) -/

/-- Length of the zero run starting at position `s` of the zero pattern. -/
def twLen (p : List Bool) (s : Nat) : Nat := ((p.drop s).takeWhile id).length

/-- Spec-side: length of the longest run of zero groups. -/
def specRunLen (p : List Bool) : Nat := ((List.range 8).map (twLen p)).foldr max 0

/-- Spec-side: start of the leftmost longest run of zero groups. -/
def specRunStart (p : List Bool) : Nat :=
  (((List.range 8).filter (fun s => twLen p s = specRunLen p)).headD 0)

/-- The zero-run scan of `formatIPv6` expressed on the boolean zero
pattern alone (the scan only ever inspects `groups[i] === 0`). -/
def runScanB (p : List Bool) : Int × Nat :=
  let st := (p.enum).foldl (fun st q => runStep st q.1 q.2) ⟨-1, 0, -1, 0⟩
  if st.currLen > st.maxLen then (st.currStart, st.currLen) else (st.maxStart, st.maxLen)

/-- C8's spec-side formatter, written from the claim's words: find the
longest run of zero groups (leftmost on ties); compress it with `::` only
when its length is at least 2; render all of it as `::` when it spans all
8 groups; otherwise join the remaining lowercase minimal hex groups with
`:`; perform no compression when no run of length ≥ 2 exists. -/
def formatSpecC8 (bytes : List Nat) : JsStr :=
  let groups := groupsOfBytes bytes
  let p := groups.map (fun g => decide (g = 0))
  let len := specRunLen p
  let start := specRunStart p
  if 2 ≤ len then
    if len = 8 then js "::"
    else
      let left := joinColon ((groups.take start).map toHexStr)
      let right := joinColon ((groups.drop (start + len)).map toHexStr)
      if start = 0 then js "::" ++ right
      else if start + len = 8 then left ++ js "::"
      else left ++ js "::" ++ right
  else joinColon (groups.map toHexStr)

/-- A group string the `parseIPv6` loop rejects: `parseInt(g, 16)` is `NaN`
or yields a value above `0xffff`. -/
def groupBad (g : JsStr) : Bool :=
  match jsParseInt16 g with
  | none => true
  | some v => decide (v > 65535)

/-- The amended C6 rejection condition, stated from the source's actual
`parseInt`-based semantics: more than one `::`; or no `::` and not exactly
8 groups; or some examined group string is rejected by `parseInt`. -/
def parseRejects (addr : JsStr) : Bool :=
  let a := toLowerJs (trimJs addr)
  if (breakColonColon a).isSome then
    let parts := splitColonColon a
    if 2 < parts.length then true
    else
      let left := if (parts.getD 0 []).isEmpty then [] else splitOnChar 58 (parts.getD 0 [])
      let right := if (parts.getD 1 []).isEmpty then [] else splitOnChar 58 (parts.getD 1 [])
      let missing := 8 - left.length - right.length
      let groups := left ++ List.replicate missing (js "0") ++ right
      let g8 := (List.range 8).map (fun i =>
        let g := groups.getD i []
        if g.isEmpty then js "0" else g)
      g8.any groupBad
  else
    let groups := splitOnChar 58 a
    if groups.length ≠ 8 then true else groups.any groupBad

/-- Well-formed byte arrays: 16 bytes, each below 256 (`Uint8Array(16)`). -/
def wfBytes (b : List Nat) : Bool := b.length = 16 && b.all (· < 256)

/-- Children count of the node stored at a CIDR (observation helper). -/
def childCountAt (t : Tree) (cidr : JsStr) : Option Nat :=
  (getKey t cidr).map (fun n => n.children.length)

/-- Note of the node stored at a CIDR (observation helper). -/
def noteAt (t : Tree) (cidr : JsStr) : Option JsStr :=
  (getKey t cidr).map SNode.note

/-! ### State persistence (saveState lines 665-677, loadState lines 683-703)

`saveState` runs `btoa(encodeURIComponent(JSON.stringify(state)))`;
`loadState` runs `JSON.parse(decodeURIComponent(atob(hash)))` and installs
the raw parsed object.  The browser built-ins are modelled below; `none`
models a thrown exception. -/

/-- The base64 alphabet. -/
def b64Char (v : Nat) : Nat :=
  if v < 26 then 65 + v
  else if v < 52 then 97 + (v - 26)
  else if v < 62 then 48 + (v - 52)
  else if v = 62 then 43 else 47

/-- Inverse of the base64 alphabet. -/
def b64Val (c : Nat) : Option Nat :=
  if 65 ≤ c ∧ c ≤ 90 then some (c - 65)
  else if 97 ≤ c ∧ c ≤ 122 then some (c - 97 + 26)
  else if 48 ≤ c ∧ c ≤ 57 then some (c - 48 + 52)
  else if c = 43 then some 62
  else if c = 47 then some 63
  else none

/-- Model of `btoa`: 3-byte chunks to 4 alphabet characters with `=`
padding; `none` models the `InvalidCharacterError` on units above 255. -/
def btoa : JsStr → Option JsStr
  | [] => some []
  | [b0] =>
    if b0 < 256 then some [b64Char (b0 >>> 2), b64Char ((b0 % 4) <<< 4), 61, 61] else none
  | [b0, b1] =>
    if b0 < 256 ∧ b1 < 256 then
      some [b64Char (b0 >>> 2), b64Char (((b0 % 4) <<< 4) ||| (b1 >>> 4)),
            b64Char ((b1 % 16) <<< 2), 61]
    else none
  | b0 :: b1 :: b2 :: rest =>
    if b0 < 256 ∧ b1 < 256 ∧ b2 < 256 then
      (btoa rest).map (fun tail =>
        b64Char (b0 >>> 2) :: b64Char (((b0 % 4) <<< 4) ||| (b1 >>> 4)) ::
        b64Char (((b1 % 16) <<< 2) ||| (b2 >>> 6)) :: b64Char (b2 % 64) :: tail)
    else none

/-- Model of `atob` on the padded strings `btoa` emits (the
forgiving-base64 whitespace/unpadded tolerances are outside `btoa`'s image
and never exercised); excess bits of a final partial chunk are discarded
as in the WHATWG algorithm. -/
def atob : JsStr → Option JsStr
  | [] => some []
  | [c0, c1, 61, 61] =>
    match b64Val c0, b64Val c1 with
    | some v0, some v1 => some [(v0 <<< 2) ||| (v1 >>> 4)]
    | _, _ => none
  | [c0, c1, c2, 61] =>
    match b64Val c0, b64Val c1, b64Val c2 with
    | some v0, some v1, some v2 =>
      some [(v0 <<< 2) ||| (v1 >>> 4), ((v1 % 16) <<< 4) ||| (v2 >>> 2)]
    | _, _, _ => none
  | c0 :: c1 :: c2 :: c3 :: rest =>
    match b64Val c0, b64Val c1, b64Val c2, b64Val c3, atob rest with
    | some v0, some v1, some v2, some v3, some tail =>
      some (((v0 <<< 2) ||| (v1 >>> 4)) :: (((v1 % 16) <<< 4) ||| (v2 >>> 2)) ::
            (((v2 % 4) <<< 6) ||| v3) :: tail)
    | _, _, _, _, _ => none
  | _ => none

/-- The characters `encodeURIComponent` leaves unescaped. -/
def uriUnreserved (c : Nat) : Bool :=
  (65 ≤ c && c ≤ 90) || (97 ≤ c && c ≤ 122) || (48 ≤ c && c ≤ 57) ||
  c = 45 || c = 95 || c = 46 || c = 33 || c = 126 || c = 42 || c = 39 ||
  c = 40 || c = 41

/-- UTF-8 encoding of a code point. -/
def utf8Enc (p : Nat) : List Nat :=
  if p < 0x80 then [p]
  else if p < 0x800 then [0xC0 + p / 64, 0x80 + p % 64]
  else if p < 0x10000 then [0xE0 + p / 4096, 0x80 + (p / 64) % 64, 0x80 + p % 64]
  else [0xF0 + p / 262144, 0x80 + (p / 4096) % 64, 0x80 + (p / 64) % 64, 0x80 + p % 64]

/-- Uppercase hex digit character (percent-escapes use uppercase). -/
def hexUpChar (d : Nat) : Nat := if d < 10 then 48 + d else 55 + d

/-- Lowercase hex digit character. -/
def hexLoChar (d : Nat) : Nat := if d < 10 then 48 + d else 87 + d

/-- A `%XX` escape for one byte. -/
def pctByte (b : Nat) : JsStr := [37, hexUpChar (b / 16), hexUpChar (b % 16)]

/-- The UTF-16 unit(s) of a code point. -/
def utf16OfPoint (p : Nat) : List Nat :=
  if p < 0x10000 then [p]
  else [0xD800 + (p - 0x10000) / 1024, 0xDC00 + (p - 0x10000) % 1024]

/-- Model of `encodeURIComponent`: unreserved characters pass through,
everything else becomes the percent-escaped UTF-8 bytes of its code point;
`none` models the `URIError` on a lone surrogate. -/
def encodeURIComp : JsStr → Option JsStr
  | [] => some []
  | c :: rest =>
    if uriUnreserved c then (encodeURIComp rest).map (c :: ·)
    else if 0xD800 ≤ c ∧ c ≤ 0xDBFF then
      match rest with
      | c2 :: rest2 =>
        if 0xDC00 ≤ c2 ∧ c2 ≤ 0xDFFF then
          let p := 0x10000 + (c - 0xD800) * 1024 + (c2 - 0xDC00)
          (encodeURIComp rest2).map (fun t => (utf8Enc p).flatMap pctByte ++ t)
        else none
      | [] => none
    else if 0xDC00 ≤ c ∧ c ≤ 0xDFFF then none
    else (encodeURIComp rest).map (fun t => (utf8Enc c).flatMap pctByte ++ t)

/-- Read one `%XX` escape. -/
def readPct : JsStr → Option (Nat × JsStr)
  | 37 :: h1 :: h2 :: rest =>
    match hexVal h1, hexVal h2 with
    | some a, some b => some (16 * a + b, rest)
    | _, _ => none
  | _ => none

/-- Fueled worker for `decodeURIComp`. -/
def decURIAux : Nat → JsStr → Option JsStr
  | 0, s => if s.isEmpty then some [] else none
  | fuel + 1, s =>
    match s with
    | [] => some []
    | c :: rest =>
      if c = 37 then
        match readPct (c :: rest) with
        | none => none
        | some (b, r1) =>
          if b < 0x80 then (decURIAux fuel r1).map (b :: ·)
          else if 0xC0 ≤ b ∧ b < 0xE0 then
            match readPct r1 with
            | some (b1, r2) =>
              if 0x80 ≤ b1 ∧ b1 < 0xC0 then
                let p := (b - 0xC0) * 64 + (b1 - 0x80)
                if p < 0x80 then none
                else (decURIAux fuel r2).map (fun t => utf16OfPoint p ++ t)
              else none
            | none => none
          else if 0xE0 ≤ b ∧ b < 0xF0 then
            match readPct r1 with
            | some (b1, r2) =>
              match readPct r2 with
              | some (b2, r3) =>
                if 0x80 ≤ b1 ∧ b1 < 0xC0 ∧ 0x80 ≤ b2 ∧ b2 < 0xC0 then
                  let p := (b - 0xE0) * 4096 + (b1 - 0x80) * 64 + (b2 - 0x80)
                  if p < 0x800 ∨ (0xD800 ≤ p ∧ p ≤ 0xDFFF) then none
                  else (decURIAux fuel r3).map (fun t => utf16OfPoint p ++ t)
                else none
              | none => none
            | none => none
          else if 0xF0 ≤ b ∧ b < 0xF8 then
            match readPct r1 with
            | some (b1, r2) =>
              match readPct r2 with
              | some (b2, r3) =>
                match readPct r3 with
                | some (b3, r4) =>
                  if 0x80 ≤ b1 ∧ b1 < 0xC0 ∧ 0x80 ≤ b2 ∧ b2 < 0xC0 ∧ 0x80 ≤ b3 ∧ b3 < 0xC0 then
                    let p := (b - 0xF0) * 262144 + (b1 - 0x80) * 4096 + (b2 - 0x80) * 64 + (b3 - 0x80)
                    if p < 0x10000 ∨ p > 0x10FFFF then none
                    else (decURIAux fuel r4).map (fun t => utf16OfPoint p ++ t)
                  else none
                | none => none
              | none => none
            | none => none
          else none
      else (decURIAux fuel rest).map (c :: ·)

/-- Model of `decodeURIComponent`; `none` models `URIError`. -/
def decodeURIComp (s : JsStr) : Option JsStr := decURIAux s.length s

/-- JSON values (numbers restricted to the nonnegative integers the
planner's state actually serializes; JS float semantics are outside the
embedding). -/
inductive JValue where
  | str (s : JsStr)
  | num (n : Nat)
  | obj (fields : List (JsStr × JValue))
  | arr (elems : List JValue)
  | jtrue
  | jfalse
  | jnull

/-- One code unit's rendering in ES2019 well-formed `JSON.stringify`
string quoting (used for every unit that is not part of a surrogate
pair): `"`/`\`/controls escaped, a lone surrogate written as `\uXXXX`,
anything else literal. -/
def escUnit (c : Nat) : JsStr :=
  if c = 34 then [92, 34]
  else if c = 92 then [92, 92]
  else if c = 8 then [92, 98]
  else if c = 9 then [92, 116]
  else if c = 10 then [92, 110]
  else if c = 12 then [92, 102]
  else if c = 13 then [92, 114]
  else if c < 32 then [92, 117, 48, 48, hexLoChar (c / 16), hexLoChar (c % 16)]
  else if 0xD800 ≤ c ∧ c ≤ 0xDFFF then
    [92, 117, hexLoChar (c / 4096), hexLoChar (c / 256 % 16),
     hexLoChar (c / 16 % 16), hexLoChar (c % 16)]
  else [c]

/-- Escape body of well-formed `JSON.stringify` quoting: paired surrogates
stay literal, everything else goes through `escUnit`. -/
def quoteBody : JsStr → JsStr
  | [] => []
  | [c] => escUnit c
  | c :: c2 :: rest =>
    if 0xD800 ≤ c ∧ c ≤ 0xDBFF ∧ 0xDC00 ≤ c2 ∧ c2 ≤ 0xDFFF then
      c :: c2 :: quoteBody rest
    else escUnit c ++ quoteBody (c2 :: rest)

/-- `JSON.stringify` string quoting. -/
def quoteJStr (s : JsStr) : JsStr := 34 :: quoteBody s ++ [34]

mutual

/-- `JSON.stringify` on the modelled value space (no indentation, keys in
insertion order, exactly as the source's call emits). -/
def stringifyJV : JValue → JsStr
  | .str s => quoteJStr s
  | .num n => toDecStr n
  | .jtrue => js "true"
  | .jfalse => js "false"
  | .jnull => js "null"
  | .obj fs => 123 :: stringifyJFields fs ++ [125]
  | .arr es => 91 :: stringifyJElems es ++ [93]

/-- Comma-joined `"key":value` members. -/
def stringifyJFields : List (JsStr × JValue) → JsStr
  | [] => []
  | [(k, v)] => quoteJStr k ++ 58 :: stringifyJV v
  | (k, v) :: rest => quoteJStr k ++ 58 :: stringifyJV v ++ 44 :: stringifyJFields rest

/-- Comma-joined array elements. -/
def stringifyJElems : List JValue → JsStr
  | [] => []
  | [v] => stringifyJV v
  | v :: rest => stringifyJV v ++ 44 :: stringifyJElems rest

end

/-- JSON whitespace skipping. -/
def skipJsonWs (s : JsStr) : JsStr := s.dropWhile (fun c => c = 32 || c = 9 || c = 10 || c = 13)

/-- One JSON string escape after the backslash: the decoded unit and the
remaining text. -/
def escDecode : JsStr → Option (Nat × JsStr)
  | [] => none
  | e :: r =>
    if e = 34 then some (34, r)
    else if e = 92 then some (92, r)
    else if e = 47 then some (47, r)
    else if e = 98 then some (8, r)
    else if e = 102 then some (12, r)
    else if e = 110 then some (10, r)
    else if e = 114 then some (13, r)
    else if e = 116 then some (9, r)
    else if e = 117 then
      match r with
      | h1 :: h2 :: h3 :: h4 :: r2 =>
        (match hexVal h1, hexVal h2, hexVal h3, hexVal h4 with
         | some a, some b, some cv, some d => some (a * 4096 + b * 256 + cv * 16 + d, r2)
         | _, _, _, _ => none)
      | _ => none
    else none

/-- JSON string body after the opening quote: literal units at and above
0x20 (except `"` and `\`), the standard escapes, and `\uXXXX`.  Fueled so
that it reduces in the kernel; every step consumes at least one character,
so fuel equal to the string length never cuts a successful parse short. -/
def parseJString : Nat → JsStr → Option (JsStr × JsStr)
  | 0, _ => none
  | fuel + 1, s =>
    match s with
    | [] => none
    | c :: rest =>
      if c = 34 then some ([], rest)
      else if c = 92 then
        match escDecode rest with
        | some (u, r) => (parseJString fuel r).map (fun q => (u :: q.1, q.2))
        | none => none
      else if c < 32 then none
      else (parseJString fuel rest).map (fun q => (c :: q.1, q.2))

/-- JSON number token, restricted to the nonnegative integers of the
modelled value space (a fraction or exponent falls outside the embedding
and yields `none`). -/
def parseJNumber (s : JsStr) : Option (Nat × JsStr) :=
  let ds := digitRun decVal s
  let rest := s.drop ds.length
  if ds.isEmpty then none
  else if ds.length > 1 ∧ ds.headD 1 = 0 then none
  else
    match rest with
    | [] => some (digitsVal 10 ds, rest)
    | r :: _ =>
      if r = 46 ∨ r = 101 ∨ r = 69 then none
      else some (digitsVal 10 ds, rest)

mutual

/-- Fueled model of `JSON.parse`'s value grammar. -/
def parseJValue : Nat → JsStr → Option (JValue × JsStr)
  | 0, _ => none
  | fuel + 1, s0 =>
    match skipJsonWs s0 with
    | [] => none
    | c :: rest =>
      if c = 34 then (parseJString rest.length rest).map (fun q => (JValue.str q.1, q.2))
      else if c = 123 then
        (match skipJsonWs rest with
         | [] => none
         | c2 :: r2 =>
           if c2 = 125 then some (JValue.obj [], r2)
           else (parseJMembers fuel (c2 :: r2)).map (fun q => (JValue.obj q.1, q.2)))
      else if c = 91 then
        (match skipJsonWs rest with
         | [] => none
         | c2 :: r2 =>
           if c2 = 93 then some (JValue.arr [], r2)
           else (parseJElems fuel (c2 :: r2)).map (fun q => (JValue.arr q.1, q.2)))
      else if c = 116 then
        (match rest with
         | r1 :: r2 :: r3 :: r =>
           if r1 = 114 ∧ r2 = 117 ∧ r3 = 101 then some (JValue.jtrue, r) else none
         | _ => none)
      else if c = 102 then
        (match rest with
         | r1 :: r2 :: r3 :: r4 :: r =>
           if r1 = 97 ∧ r2 = 108 ∧ r3 = 115 ∧ r4 = 101 then some (JValue.jfalse, r) else none
         | _ => none)
      else if c = 110 then
        (match rest with
         | r1 :: r2 :: r3 :: r =>
           if r1 = 117 ∧ r2 = 108 ∧ r3 = 108 then some (JValue.jnull, r) else none
         | _ => none)
      else (parseJNumber (c :: rest)).map (fun q => (JValue.num q.1, q.2))

/-- Object members after the opening brace (nonempty case). -/
def parseJMembers : Nat → JsStr → Option (List (JsStr × JValue) × JsStr)
  | 0, _ => none
  | fuel + 1, s =>
    match skipJsonWs s with
    | [] => none
    | c :: rest =>
      if c = 34 then
        match parseJString rest.length rest with
        | none => none
        | some (k, r1) =>
          match skipJsonWs r1 with
          | [] => none
          | c2 :: r2 =>
            if c2 = 58 then
              match parseJValue fuel r2 with
              | none => none
              | some (v, r3) =>
                match skipJsonWs r3 with
                | [] => none
                | c3 :: r4 =>
                  if c3 = 44 then
                    (parseJMembers fuel r4).map (fun q => ((k, v) :: q.1, q.2))
                  else if c3 = 125 then some ([(k, v)], r4)
                  else none
            else none
      else none

/-- Array elements after the opening bracket (nonempty case). -/
def parseJElems : Nat → JsStr → Option (List JValue × JsStr)
  | 0, _ => none
  | fuel + 1, s =>
    match parseJValue fuel s with
    | none => none
    | some (v, r1) =>
      match skipJsonWs r1 with
      | [] => none
      | c :: r2 =>
        if c = 44 then (parseJElems fuel r2).map (fun q => (v :: q.1, q.2))
        else if c = 93 then some ([v], r2)
        else none

end

/-- Model of `JSON.parse`: parse one value, require only whitespace after
it. -/
def jsonParse (s : JsStr) : Option JValue :=
  match parseJValue (s.length + 1) s with
  | some (v, rest) => if (skipJsonWs rest).isEmpty then some v else none
  | none => none

/-- The persisted state triple `{network, prefix, tree}`. -/
structure PState where
  network : JsStr
  prefixLen : Nat
  tree : Tree

mutual

/-- The JSON value `JSON.stringify` sees for a subnet node object. -/
def jvOfNode : SNode → JValue
  | .mk note color ch =>
    .obj ((js "_note", .str note) :: (js "_color", .str color) :: jvOfChildren ch)

/-- The JSON members for the nested child entries. -/
def jvOfChildren : List (JsStr × SNode) → List (JsStr × JValue)
  | [] => []
  | (k, n) :: rest => (k, jvOfNode n) :: jvOfChildren rest

end

/-- The JSON value of the whole state object (insertion order `network`,
`prefix`, `tree`, as in saveState lines 668-672). -/
def jvOfState (st : PState) : JValue :=
  .obj [(js "network", .str st.network), (js "prefix", .num st.prefixLen),
        (js "tree", .obj (jvOfChildren st.tree))]

/-- Model of `saveState`'s hash text:
`btoa(encodeURIComponent(JSON.stringify(state)))`. -/
def saveStateText (st : PState) : Option JsStr :=
  (encodeURIComp (stringifyJV (jvOfState st))).bind btoa

mutual

/-- Recover a subnet node from the parsed JSON value (the shape
`loadState` relies on: `_note` and `_color` string members first, then the
child entries). -/
def nodeOfJV : JValue → Option SNode
  | .obj ((k1, .str n) :: (k2, .str c) :: rest) =>
    if k1 = js "_note" ∧ k2 = js "_color" then
      (childrenOfJV rest).map (SNode.mk n c)
    else none
  | _ => none

/-- Recover the nested child entries. -/
def childrenOfJV : List (JsStr × JValue) → Option (List (JsStr × SNode))
  | [] => some []
  | (k, v) :: rest =>
    match nodeOfJV v, childrenOfJV rest with
    | some n, some ns => some ((k, n) :: ns)
    | _, _ => none

end

/-- Recover the state triple from the parsed JSON value. -/
def stateOfJV : JValue → Option PState
  | .obj [(k1, .str net), (k2, .num p), (k3, .obj tfs)] =>
    if k1 = js "network" ∧ k2 = js "prefix" ∧ k3 = js "tree" then
      (childrenOfJV tfs).map (PState.mk net p)
    else none
  | _ => none

/-- Model of `loadState`'s decode path:
`JSON.parse(decodeURIComponent(atob(hash)))`, then the state fields. -/
def loadStateOf (hash : JsStr) : Option PState :=
  ((atob hash).bind decodeURIComp).bind (fun j => (jsonParse j).bind stateOfJV)

/-- Well-formed JS string: UTF-16 code units. -/
def wfStr (s : JsStr) : Bool := s.all (· < 65536)

mutual

/-- Well-formedness of a stored node: genuine UTF-16 strings, child keys
distinct and distinct from the `_note`/`_color` property names (exactly
what being a real JS object guarantees). -/
def wfNode : SNode → Bool
  | .mk note color ch =>
    wfStr note && wfStr color && wfChildren ch &&
    decide ((ch.map Prod.fst).Nodup)

/-- Well-formedness of the nested child entries. -/
def wfChildren : List (JsStr × SNode) → Bool
  | [] => true
  | (k, n) :: rest =>
    wfStr k && decide (k ≠ js "_note") && decide (k ≠ js "_color") &&
    wfNode n && wfChildren rest

end

/-- Well-formedness of a persisted state: real strings, an exactly
representable prefix number, a real-object tree. -/
def wfState (st : PState) : Bool :=
  wfStr st.network && decide (st.prefixLen < 2 ^ 53) &&
  wfChildren st.tree && decide ((st.tree.map Prod.fst).Nodup)

/-- Well-formed UTF-16 code-unit sequence: every unit below `0x10000` and
surrogates only as high/low pairs (the shape `JSON.stringify`'s
well-formed output guarantees, and the condition under which
`encodeURIComponent` does not throw). -/
def wfU : JsStr → Bool
  | [] => true
  | c :: rest =>
    if 0xD800 ≤ c ∧ c < 0xDC00 then
      match rest with
      | c2 :: rest2 => decide (0xDC00 ≤ c2 ∧ c2 < 0xE000) && wfU rest2
      | [] => false
    else decide (c < 65536 ∧ ¬(0xDC00 ≤ c ∧ c < 0xE000)) && wfU rest

mutual

/-- Fuel measure for `parseJValue` on a serialized value. -/
def jvSize : JValue → Nat
  | .obj fs => 1 + jmSize fs
  | .arr es => 1 + jeSize es
  | _ => 1

/-- Fuel measure for `parseJMembers`. -/
def jmSize : List (JsStr × JValue) → Nat
  | [] => 0
  | (_, v) :: rest => 1 + jvSize v + jmSize rest

/-- Fuel measure for `parseJElems`. -/
def jeSize : List JValue → Nat
  | [] => 0
  | v :: rest => 1 + jvSize v + jeSize rest

end

mutual

/-- Well-formedness of a modelled JSON value: every string is a genuine
UTF-16 string. -/
def wfJV : JValue → Bool
  | .str s => wfStr s
  | .obj fs => wfJFields fs
  | .arr es => wfJElems es
  | _ => true

/-- Well-formedness of object members. -/
def wfJFields : List (JsStr × JValue) → Bool
  | [] => true
  | (k, v) :: rest => wfStr k && wfJV v && wfJFields rest

/-- Well-formedness of array elements. -/
def wfJElems : List JValue → Bool
  | [] => true
  | v :: rest => wfJV v && wfJElems rest

end

/-! # Theorems -/

/-! ## Bit arithmetic -/

/-- Disjoint bitwise or is addition: a multiple of `2^m` or-ed with a value
below `2^m`. -/
theorem lor_mul_pow_eq_add (a b m : Nat) (h : b < 2 ^ m) :
    (a * 2 ^ m) ||| b = a * 2 ^ m + b := by
  apply Nat.eq_of_testBit_eq
  intro i
  rw [Nat.testBit_lor]
  rcases Nat.lt_or_ge i m with hi | hi
  · have him : m = (m - i) + i := (Nat.sub_add_cancel hi.le).symm
    have hdiv : a * 2 ^ m / 2 ^ i = a * 2 ^ (m - i) := by
      conv_lhs => rw [him, pow_add, ← Nat.mul_assoc]
      exact Nat.mul_div_cancel _ (Nat.pos_pow_of_pos i (by norm_num))
    have heven : a * 2 ^ (m - i) % 2 = 0 :=
      Nat.mod_eq_zero_of_dvd (Dvd.dvd.mul_left (dvd_pow_self 2 (by omega)) a)
    have hlow : (a * 2 ^ m).testBit i = false := by
      rw [Nat.testBit_to_div_mod, hdiv]
      simp [heven]
    have hsum : (a * 2 ^ m + b).testBit i = b.testBit i := by
      rw [Nat.testBit_to_div_mod, Nat.testBit_to_div_mod]
      have hd2 : (a * 2 ^ m + b) / 2 ^ i = b / 2 ^ i + a * 2 ^ (m - i) := by
        conv_lhs => rw [him, pow_add, ← Nat.mul_assoc, Nat.add_comm, Nat.mul_comm (a * 2 ^ (m - i)) (2 ^ i)]
        exact Nat.add_mul_div_left _ _ (Nat.pos_pow_of_pos i (by norm_num))
      rw [hd2, decide_eq_decide]
      omega
    rw [hsum, hlow, Bool.false_or]
  · have hbf : b.testBit i = false :=
      Nat.testBit_lt_two_pow (lt_of_lt_of_le h (Nat.pow_le_pow_right (by norm_num) hi))
    have hd3 : (a * 2 ^ m + b) / 2 ^ i = a * 2 ^ m / 2 ^ i := by
      have hi2 : (2:Nat) ^ i = 2 ^ m * 2 ^ (i - m) := by
        rw [← pow_add]
        congr 1
        omega
      rw [hi2, ← Nat.div_div_eq_div_mul, ← Nat.div_div_eq_div_mul]
      congr 1
      rw [Nat.mul_comm a (2 ^ m), Nat.add_comm]
      rw [Nat.add_mul_div_left _ _ (Nat.pos_pow_of_pos m (by norm_num))]
      rw [Nat.div_eq_of_lt h, Nat.mul_div_cancel_left _ (Nat.pos_pow_of_pos m (by norm_num))]
      omega
    rw [hbf, Bool.or_false, Nat.testBit_to_div_mod, Nat.testBit_to_div_mod, hd3]

/-- Disjoint or is addition, divisibility form. -/
theorem lor_eq_add_of_dvd {m P x : Nat} (hd : 2 ^ m ∣ P) (hx : x < 2 ^ m) :
    P ||| x = P + x := by
  obtain ⟨a, ha⟩ := hd
  rw [ha, Nat.mul_comm]
  exact lor_mul_pow_eq_add a x m hx

/-- The byte-accumulation step is plain base-256 positioning. -/
theorem lor_byte_step (a b : Nat) (hb : b < 256) : a <<< 8 ||| b = a * 256 + b := by
  rw [Nat.shiftLeft_eq]
  exact lor_mul_pow_eq_add a b 8 hb

/-- `toBitValue`'s fold with a general accumulator. -/
theorem foldl_lor_acc (l : List Nat) (h : ∀ x ∈ l, x < 256) (acc : Nat) :
    l.foldl (fun a b => a <<< 8 ||| b) acc
      = acc * 256 ^ l.length + l.foldl (fun a b => a <<< 8 ||| b) 0 := by
  induction l generalizing acc with
  | nil => simp
  | cons b t ih =>
    have hb : b < 256 := h b (by simp)
    have ht : ∀ x ∈ t, x < 256 := fun x hx => h x (by simp [hx])
    simp only [List.foldl_cons, List.length_cons]
    rw [lor_byte_step acc b hb, lor_byte_step 0 b hb, ih ht (acc * 256 + b), ih ht (0 * 256 + b)]
    ring

/-- Upper bound of the byte fold. -/
theorem foldl_lor_lt (l : List Nat) (h : ∀ x ∈ l, x < 256) (acc : Nat) :
    l.foldl (fun a b => a <<< 8 ||| b) acc < (acc + 1) * 256 ^ l.length := by
  induction l generalizing acc with
  | nil => simp
  | cons b t ih =>
    have hb : b < 256 := h b (by simp)
    have ht : ∀ x ∈ t, x < 256 := fun x hx => h x (by simp [hx])
    simp only [List.foldl_cons, List.length_cons]
    rw [lor_byte_step acc b hb]
    calc t.foldl (fun a b => a <<< 8 ||| b) (acc * 256 + b)
        < (acc * 256 + b + 1) * 256 ^ t.length := ih ht _
      _ ≤ ((acc + 1) * 256) * 256 ^ t.length :=
          mul_le_mul_right' (show acc * 256 + b + 1 ≤ (acc + 1) * 256 by omega) _
      _ = (acc + 1) * 256 ^ (t.length + 1) := by ring

/-- `toBitValue` of valid bytes is below `256^length`. -/
theorem toBitValue_lt (l : List Nat) (h : ∀ x ∈ l, x < 256) :
    toBitValue l < 256 ^ l.length := by
  have := foldl_lor_lt l h 0
  simpa [toBitValue] using this

/-- Big-endian positional expansion of `toBitValue`. -/
theorem toBitValue_cons (b : Nat) (t : List Nat) (hb : b < 256) (ht : ∀ x ∈ t, x < 256) :
    toBitValue (b :: t) = b * 256 ^ t.length + toBitValue t := by
  show t.foldl (fun a b => a <<< 8 ||| b) (0 <<< 8 ||| b) = _
  rw [show (0 <<< 8 ||| b) = b by rw [lor_byte_step 0 b hb]; omega]
  exact foldl_lor_acc t ht b

/-- `fromBitAux` inverts the byte fold. -/
theorem fromBitAux_val (l : List Nat) (h : ∀ x ∈ l, x < 256) :
    fromBitAux l.length (toBitValue l) = l.reverse := by
  induction l using List.reverseRecOn with
  | nil => simp [fromBitAux, toBitValue]
  | append_singleton t b ih =>
    have hb : b < 256 := h b (by simp)
    have ht : ∀ x ∈ t, x < 256 := fun x hx => h x (by simp [hx])
    have hT : toBitValue (t ++ [b]) = toBitValue t * 256 + b := by
      show (t ++ [b]).foldl (fun a b => a <<< 8 ||| b) 0 = _
      rw [List.foldl_append]
      exact lor_byte_step _ b hb
    have hlen : (t ++ [b]).length = t.length + 1 := by simp
    rw [hlen, hT]
    show (((toBitValue t * 256 + b) &&& 255) :: fromBitAux t.length ((toBitValue t * 256 + b) >>> 8))
        = (t ++ [b]).reverse
    have h255 : ((toBitValue t * 256 + b) &&& 255) = b := by
      have : (255 : Nat) = 2 ^ 8 - 1 := by norm_num
      rw [this, Nat.and_pow_two_sub_one_eq_mod]
      rw [Nat.mul_comm, Nat.mul_add_mod]
      exact Nat.mod_eq_of_lt hb
    have hshr : (toBitValue t * 256 + b) >>> 8 = toBitValue t := by
      rw [Nat.shiftRight_eq_div_pow]
      have : (2:Nat) ^ 8 = 256 := by norm_num
      rw [this, Nat.mul_comm, Nat.add_comm, Nat.add_mul_div_left _ _ (by norm_num : (0:Nat) < 256)]
      rw [Nat.div_eq_of_lt hb]
      omega
    rw [h255, hshr, ih ht]
    simp

/-- Round trip: converting 16 valid bytes to a BigInt and back is the
identity. -/
theorem fromBitValue_toBitValue (l : List Nat) (hlen : l.length = 16)
    (h : ∀ x ∈ l, x < 256) : fromBitValue (toBitValue l) = l := by
  rw [fromBitValue, ← hlen, fromBitAux_val l h, List.reverse_reverse]

/-- The partial-byte mask of `applyPrefix` keeps the high bits. -/
theorem byteMask_val : ∀ (b : Fin 256) (k : Fin 9),
    (b.val &&& ((255 <<< k.val) &&& 255)) = b.val / 2 ^ k.val * 2 ^ k.val := by decide

/-- `maskBytes` preserves length. -/
theorem maskBytes_length (l : List Nat) (p : Nat) : (maskBytes l p).length = l.length := by
  induction l generalizing p with
  | nil => simp [maskBytes]
  | cons b bs ih =>
    by_cases h8 : 8 ≤ p
    · simp [maskBytes, h8, ih]
    · by_cases h0 : p = 0
      · simp [maskBytes, h8, h0, ih]
      · simp [maskBytes, h8, h0, ih]

/-- `maskBytes` preserves byte bounds. -/
theorem maskBytes_wf (l : List Nat) (p : Nat) (h : ∀ x ∈ l, x < 256) :
    ∀ x ∈ maskBytes l p, x < 256 := by
  induction l generalizing p with
  | nil => simp [maskBytes]
  | cons b bs ih =>
    have hb : b < 256 := h b (by simp)
    have hbs : ∀ x ∈ bs, x < 256 := fun x hx => h x (by simp [hx])
    by_cases h8 : 8 ≤ p
    · simp only [maskBytes, if_pos h8, List.mem_cons]
      rintro x (rfl | hx)
      · exact hb
      · exact ih (p - 8) hbs x hx
    · by_cases h0 : p = 0
      · simp only [maskBytes, if_neg h8, if_pos h0, List.mem_cons]
        rintro x (rfl | hx)
        · norm_num
        · exact ih 0 hbs x hx
      · simp only [maskBytes, if_neg h8, if_neg h0, List.mem_cons]
        rintro x (rfl | hx)
        · exact lt_of_le_of_lt Nat.and_le_left hb
        · exact ih 0 hbs x hx

/-- `applyPrefix` at the BigInt level: clear the low `8·len − p` bits. -/
theorem high_add_div (T X m : Nat) : (X * 2 ^ m + T) / 2 ^ m = T / 2 ^ m + X := by
  rw [Nat.add_comm, Nat.mul_comm]
  exact Nat.add_mul_div_left _ _ (Nat.pos_pow_of_pos m (by norm_num))

/-- Floor-truncation at `2^m` ignores complete high multiples. -/
theorem high_add_div_mul (T X m : Nat) :
    (X * 2 ^ m + T) / 2 ^ m * 2 ^ m = X * 2 ^ m + T / 2 ^ m * 2 ^ m := by
  rw [high_add_div]
  ring

/-- `applyPrefix` at the BigInt level: clear the low `8·len − p` bits. -/
theorem toBitValue_maskBytes (l : List Nat) (p : Nat) (h : ∀ x ∈ l, x < 256)
    (hp : p ≤ 8 * l.length) :
    toBitValue (maskBytes l p)
      = toBitValue l / 2 ^ (8 * l.length - p) * 2 ^ (8 * l.length - p) := by
  induction l generalizing p with
  | nil =>
    simp only [List.length_nil, Nat.mul_zero, Nat.le_zero] at hp
    simp [maskBytes, toBitValue, hp]
  | cons b bs ih =>
    have hb : b < 256 := h b (by simp)
    have hbs : ∀ x ∈ bs, x < 256 := fun x hx => h x (by simp [hx])
    have hlt : toBitValue bs < 256 ^ bs.length := toBitValue_lt bs hbs
    have h256 : (256:Nat) ^ bs.length = 2 ^ (8 * bs.length) := by
      rw [show (256:Nat) = 2 ^ 8 by norm_num, ← pow_mul]
    by_cases h8 : 8 ≤ p
    · have hp2 : p - 8 ≤ 8 * bs.length := by simp at hp; omega
      have hm : 8 * (b :: bs).length - p = 8 * bs.length - (p - 8) := by simp; omega
      set m := 8 * bs.length - (p - 8) with hmdef
      simp only [maskBytes, if_pos h8]
      rw [toBitValue_cons b _ hb (maskBytes_wf bs (p - 8) hbs), maskBytes_length,
        toBitValue_cons b bs hb hbs, ih (p - 8) hbs hp2, hm]
      have hsplit : (256:Nat) ^ bs.length = 2 ^ (8 * bs.length - m) * 2 ^ m := by
        rw [h256, ← pow_add]
        congr 1
        omega
      rw [hsplit, ← Nat.mul_assoc, high_add_div_mul (toBitValue bs) (b * 2 ^ (8 * bs.length - m)) m]
    · have hz : toBitValue (maskBytes bs 0) = 0 := by
        have hzz : toBitValue bs / 2 ^ (8 * bs.length) = 0 :=
          Nat.div_eq_of_lt (by rw [← h256]; exact hlt)
        have := ih 0 hbs (by omega)
        rw [Nat.sub_zero, hzz] at this
        simpa using this
      by_cases h0 : p = 0
      · subst h0
        simp only [maskBytes, if_neg h8, if_true, ite_true]
        rw [toBitValue_cons 0 _ (by norm_num) (maskBytes_wf bs 0 hbs), maskBytes_length, hz]
        have hlt2 : toBitValue (b :: bs) < 2 ^ (8 * (b :: bs).length) := by
          have h1 := toBitValue_lt (b :: bs) h
          have h2 : (256:Nat) ^ (b :: bs).length = 2 ^ (8 * (b :: bs).length) := by
            rw [show (256:Nat) = 2 ^ 8 by norm_num, ← pow_mul]
          rwa [h2] at h1
        rw [Nat.sub_zero, Nat.div_eq_of_lt hlt2]
        simp
      · have hm : 8 * (b :: bs).length - p = 8 * bs.length + (8 - p) := by simp; omega
        simp only [maskBytes, if_neg h8, if_neg h0]
        rw [toBitValue_cons _ _ (lt_of_le_of_lt Nat.and_le_left hb) (maskBytes_wf bs 0 hbs),
          maskBytes_length, hz, Nat.add_zero]
        have hbm := byteMask_val ⟨b, hb⟩ ⟨8 - p, by omega⟩
        simp only at hbm
        rw [hbm, toBitValue_cons b bs hb hbs, hm]
        have hzz : toBitValue bs / 2 ^ (8 * bs.length) = 0 :=
          Nat.div_eq_of_lt (by rw [← h256]; exact hlt)
        have hTdiv : (b * 256 ^ bs.length + toBitValue bs) / 2 ^ (8 * bs.length + (8 - p))
            = b / 2 ^ (8 - p) := by
          rw [pow_add, ← Nat.div_div_eq_div_mul, h256, high_add_div, hzz, Nat.zero_add]
        rw [hTdiv, pow_add, h256]
        ring


/-- A byte array already masked at `p` has its value divisible by the tail
power. -/
theorem dvd_of_applyPfx_eq {l : List Nat} {p : Nat} (h : ∀ x ∈ l, x < 256)
    (hp : p ≤ 8 * l.length) (heq : applyPfx l p = l) :
    2 ^ (8 * l.length - p) ∣ toBitValue l := by
  have h2 := toBitValue_maskBytes l p h hp
  rw [applyPfx] at heq
  rw [heq] at h2
  exact ⟨toBitValue l / 2 ^ (8 * l.length - p), h2.trans (Nat.mul_comm _ _)⟩

/-- Masking is the identity whenever the value is already aligned. -/
theorem applyPfx_eq_self_of_dvd {l : List Nat} {p : Nat} (h : ∀ x ∈ l, x < 256)
    (hp : p ≤ 8 * l.length) (hd : 2 ^ (8 * l.length - p) ∣ toBitValue l) :
    applyPfx l p = l := by
  have hval : toBitValue (maskBytes l p) = toBitValue l := by
    rw [toBitValue_maskBytes l p h hp]
    exact Nat.div_mul_cancel hd
  have h1 := fromBitAux_val (maskBytes l p) (maskBytes_wf l p h)
  have h2 := fromBitAux_val l h
  rw [maskBytes_length, hval] at h1
  have h3 : (maskBytes l p).reverse = l.reverse := h1.symm.trans h2
  have h4 := congrArg List.reverse h3
  simpa [applyPfx] using h4

/-! ## C7: child derivation (corrected) -/

/-- C7 counterexample: for the 16-byte parent `::1` and prefix 0, the child
derivation at index 0 returns the parent itself, not `applyPrefix(parent, 0)`
(the all-zero address), so index 0 does not reproduce the parent's base
address for every parent and prefix. -/
theorem c7_counterexample :
    getChildSubnetAtTarget [0, 0, 0, 0, 0, 0, 0, 0, 0, 0, 0, 0, 0, 0, 0, 1] 0 0 0 ≠
      applyPfx [0, 0, 0, 0, 0, 0, 0, 0, 0, 0, 0, 0, 0, 0, 0, 1] 0 := by decide

/-- C7 amended: when the 16-byte parent is already masked to a prefix
`pp ≤ tp ≤ 128` and the index is in range (`idx < 2^(tp-pp)`), the source's
bitwise or coincides with the claimed addition — the child address is the
low 128 bits of `parent + (idx << (128 - tp))` — and index 0 reproduces the
parent's own base address `applyPrefix(parent, tp) = parent`. -/
theorem c7_amended (parent : List Nat) (pp tp idx : Nat) (hwf : wfBytes parent = true)
    (h1 : pp ≤ tp) (h2 : tp ≤ 128) (hmask : applyPfx parent pp = parent)
    (hidx : idx < 2 ^ (tp - pp)) :
    getChildSubnetAtTarget parent pp tp idx
      = fromBitValue (toBitValue parent + idx * 2 ^ (128 - tp)) ∧
    getChildSubnetAtTarget parent pp tp 0 = applyPfx parent tp := by
  have hlen : parent.length = 16 := by
    simp only [wfBytes, Bool.and_eq_true, decide_eq_true_eq] at hwf
    exact hwf.1
  have hb : ∀ x ∈ parent, x < 256 := by
    simp only [wfBytes, Bool.and_eq_true, List.all_eq_true, decide_eq_true_eq] at hwf
    exact fun x hx => hwf.2 x hx
  have hpl : 8 * parent.length = 128 := by rw [hlen]
  have hdvd : 2 ^ (128 - pp) ∣ toBitValue parent := by
    have := dvd_of_applyPfx_eq hb (by omega) hmask
    rwa [hpl] at this
  have hx : idx * 2 ^ (128 - tp) < 2 ^ (128 - pp) := by
    calc idx * 2 ^ (128 - tp) < 2 ^ (tp - pp) * 2 ^ (128 - tp) :=
          (Nat.mul_lt_mul_right (Nat.pos_pow_of_pos _ (by norm_num))).mpr hidx
      _ = 2 ^ (128 - pp) := by rw [← pow_add]; congr 1; omega
  constructor
  · show fromBitValue (toBitValue parent ||| idx <<< (128 - tp)) = _
    rw [Nat.shiftLeft_eq, lor_eq_add_of_dvd hdvd hx]
  · show fromBitValue (toBitValue parent ||| 0 <<< (128 - tp)) = _
    rw [Nat.zero_shiftLeft, Nat.or_zero]
    rw [fromBitValue_toBitValue parent hlen hb]
    have : applyPfx parent tp = parent := by
      apply applyPfx_eq_self_of_dvd hb (by omega)
      rw [hpl]
      exact dvd_trans (Nat.pow_dvd_pow 2 (by omega)) hdvd
    rw [this]

/-- C7 witness: the amended statement at the concrete parent `3fff::`/20,
target 24, index 1. -/
theorem c7_amended_witness :
    (wfBytes [0x3f, 0xff, 0, 0, 0, 0, 0, 0, 0, 0, 0, 0, 0, 0, 0, 0] = true ∧
     applyPfx [0x3f, 0xff, 0, 0, 0, 0, 0, 0, 0, 0, 0, 0, 0, 0, 0, 0] 20
       = [0x3f, 0xff, 0, 0, 0, 0, 0, 0, 0, 0, 0, 0, 0, 0, 0, 0]) ∧
    (getChildSubnetAtTarget [0x3f, 0xff, 0, 0, 0, 0, 0, 0, 0, 0, 0, 0, 0, 0, 0, 0] 20 24 1
      = fromBitValue (toBitValue [0x3f, 0xff, 0, 0, 0, 0, 0, 0, 0, 0, 0, 0, 0, 0, 0, 0]
          + 1 * 2 ^ (128 - 24)) ∧
     getChildSubnetAtTarget [0x3f, 0xff, 0, 0, 0, 0, 0, 0, 0, 0, 0, 0, 0, 0, 0, 0] 20 24 0
      = applyPfx [0x3f, 0xff, 0, 0, 0, 0, 0, 0, 0, 0, 0, 0, 0, 0, 0, 0] 24) :=
  ⟨⟨by decide, by decide⟩,
    c7_amended _ 20 24 1 (by decide) (by decide) (by decide) (by decide) (by decide)⟩

/-! ## C6: parse rejection (corrected) -/

/-- The group loop fails exactly when some group string is bad. -/
theorem parseGroups_none_iff (gs : List JsStr) :
    parseGroups gs = none ↔ gs.any groupBad = true := by
  induction gs with
  | nil => simp [parseGroups]
  | cons g t ih =>
    simp only [List.any_cons, Bool.or_eq_true]
    cases hj : jsParseInt16 g with
    | none =>
      simp only [parseGroups, hj]
      simp [groupBad, hj]
    | some v =>
      by_cases hv : v > 65535
      · simp only [parseGroups, hj, if_pos hv]
        simp [groupBad, hj, hv]
      · simp only [parseGroups, hj, if_neg hv]
        have hgb : groupBad g = false := by
          simp only [groupBad, hj, decide_eq_false_iff_not]
          omega
        cases hpt : parseGroups t with
        | none => simp [hgb, ← ih, hpt]
        | some vs => simp [hgb, ← ih, hpt]

/-- C6 counterexample: the group `1z` does not denote a hexadecimal value,
yet `parseIPv6("0:0:0:0:0:0:0:1z")` accepts the address because JS
`parseInt("1z", 16)` parses the leading `1` and ignores the rest — the
claimed `InvalidFormat` result is not returned. -/
theorem c6_counterexample : (parseIPv6 (js "0:0:0:0:0:0:0:1z")).isSome = true := by decide

/-- C6 amended: `parseIPv6` returns `null` exactly when the lowercased,
trimmed input has more than one `::`, or has no `::` and not exactly 8
colon groups, or some examined group string is rejected by JS
`parseInt(g, 16)` semantics (`NaN`, i.e. no leading hex digit after the
optional sign and `0x` marker, or a value above `0xffff`; trailing garbage
after a parsable prefix and negative values are accepted). -/
theorem c6_amended (addr : JsStr) : parseIPv6 addr = none ↔ parseRejects addr = true := by
  unfold parseIPv6 parseRejects
  dsimp only
  split_ifs <;> simp [Option.map_eq_none', parseGroups_none_iff]

/-! ## Tree-operation observations -/

/-- A JS object write never removes keys. -/
theorem setKey_length_ge {α : Type} (m : List (JsStr × α)) (k : JsStr) (v : α) :
    m.length ≤ (setKey m k v).length := by
  induction m with
  | nil => simp [setKey]
  | cons kv rest ih =>
    obtain ⟨k', v'⟩ := kv
    by_cases h : k' = k
    · simp [setKey, h]
    · simpa [setKey, h] using ih

/-- A JS object write leaves at least one key. -/
theorem setKey_length_pos {α : Type} (m : List (JsStr × α)) (k : JsStr) (v : α) :
    1 ≤ (setKey m k v).length := by
  cases m with
  | nil => simp [setKey]
  | cons kv rest =>
    obtain ⟨k', v'⟩ := kv
    by_cases h : k' = k <;> simp [setKey, h]

/-- Reading back the key just written. -/
theorem getKey_setKey_self {α : Type} (m : List (JsStr × α)) (k : JsStr) (v : α) :
    getKey (setKey m k v) k = some v := by
  induction m with
  | nil => simp [setKey, getKey]
  | cons kv rest ih =>
    obtain ⟨k', v'⟩ := kv
    by_cases h : k' = k
    · simp [setKey, h, getKey]
    · simp [setKey, h, getKey, ih]

/-- The child-creation fold of `splitSubnet` never shrinks the child set. -/
theorem foldl_children_le (l : List Nat) (f : Nat → JsStr) (nd : SNode) :
    nd.children.length ≤
      (l.foldl (fun nd i => SNode.mk nd.note nd.color (setKey nd.children (f i) emptyNode))
        nd).children.length := by
  induction l generalizing nd with
  | nil => exact le_refl _
  | cons i t ih =>
    simp only [List.foldl_cons]
    refine le_trans ?_ (ih (SNode.mk nd.note nd.color (setKey nd.children (f i) emptyNode)))
    simpa [SNode.children] using setKey_length_ge nd.children (f i) emptyNode

/-- After a nonempty child-creation fold, the node has a child. -/
theorem foldl_children_one (l : List Nat) (f : Nat → JsStr) (nd : SNode) (hne : l ≠ []) :
    1 ≤ (l.foldl (fun nd i => SNode.mk nd.note nd.color (setKey nd.children (f i) emptyNode))
        nd).children.length := by
  cases l with
  | nil => exact absurd rfl hne
  | cons i t =>
    simp only [List.foldl_cons]
    refine le_trans ?_ (foldl_children_le t f _)
    simpa [SNode.children] using setKey_length_pos nd.children (f i) emptyNode

/-- Successful `splitSubnet` runs write a node with at least one child onto
the flat index entry for `cidr`. -/
theorem splitSubnet_writes_children (t : Tree) (cidr : JsStr) (tp pfxNum : Int)
    (hpfx : ((splitCidr cidr).2).bind jsParseIntDec = some pfxNum)
    (h64 : ¬pfxNum ≥ 64) (hv : ¬(tp ≤ pfxNum ∨ tp > 64))
    (bytes : List Nat) (hb : parseIPv6 (splitCidr cidr).1 = some bytes) :
    ∃ nd : SNode,
      splitSubnet t cidr (some tp) = setKey (getSubnetNode t cidr).2 cidr nd ∧
      1 ≤ nd.children.length := by
  unfold splitSubnet
  rw [hpfx]
  dsimp only
  rw [if_neg h64, if_neg hv, hb]
  dsimp only
  refine ⟨_, rfl, ?_⟩
  apply foldl_children_one
  simp only [ne_eq, List.range_eq_nil]
  positivity

/-- C5 counterexample: `splitSubnet("3fff::/20", 31)` would create
`2^11 = 2048` children (beyond the claimed 1024 cap) and, far from
rejecting the request, it mutates the tree. -/
theorem c5_counterexample :
    splitSubnet [(js "3fff::/20", emptyNode)] (js "3fff::/20") (some 31)
      ≠ [(js "3fff::/20", emptyNode)] := by
  intro hEq
  obtain ⟨nd, hrun, hone⟩ :=
    splitSubnet_writes_children [(js "3fff::/20", emptyNode)] (js "3fff::/20") 31 20
      (by decide) (by decide) (by decide)
      [0x3f, 0xff, 0, 0, 0, 0, 0, 0, 0, 0, 0, 0, 0, 0, 0, 0] (by decide)
  have hget : getSubnetNode [(js "3fff::/20", emptyNode)] (js "3fff::/20")
      = (emptyNode, [(js "3fff::/20", emptyNode)]) := rfl
  rw [hget] at hrun
  rw [hrun] at hEq
  have h1 := congrArg (fun t => childCountAt t (js "3fff::/20")) hEq
  simp only [childCountAt, getKey_setKey_self, Option.map_some'] at h1
  have h2 : getKey [(js "3fff::/20", emptyNode)] (js "3fff::/20") = some emptyNode := rfl
  rw [h2] at h1
  simp only [Option.map_some', Option.some.injEq] at h1
  have : nd.children.length = 0 := by simpa [emptyNode, SNode.children] using h1
  omega

/-- C5 amended: the 1024-child ceiling lives in the render layer, not the
split engine — every custom target offered by the split dropdown keeps the
single-level child count `2^(p - prefix)` at or below 1024 (equivalently
`p - prefix ≤ 10`), while `splitSubnet` itself performs no such check (see
the counterexample). -/
theorem c5_amended (pfx p : Nat) (hp : p ∈ renderSplitOptions pfx) :
    2 ^ (p - pfx) ≤ 1024 ∧ p - pfx ≤ 10 := by
  simp only [renderSplitOptions, List.mem_filter, List.mem_range,
    decide_eq_true_eq] at hp
  obtain ⟨-, -, -, h⟩ := hp
  refine ⟨h, ?_⟩
  have h2 : (2:Nat) ^ (p - pfx) ≤ 2 ^ 10 := le_trans h (by norm_num)
  exact (Nat.pow_le_pow_iff_right (by norm_num)).mp h2

/-- C5 witness: the amended statement at prefix 20, option 21. -/
theorem c5_amended_witness :
    21 ∈ renderSplitOptions 20 ∧ 2 ^ (21 - 20) ≤ 1024 ∧ 21 - 20 ≤ 10 :=
  ⟨by decide, c5_amended 20 21 (by decide)⟩

/-! ## C1-C4: split/join engine divergences (code bugs)

The repository's own README.md, ARCHITECTURE.md and unit tests describe a
split engine with nibble-boundary intermediate levels
(`createIntermediateLevels`), metadata inheritance, and recursive
`deleteDescendants`; the `splitSubnet`/`joinSubnet` bodies in src/app.js
lack all of this.  The theorems below evaluate the embedded source at the
failing inputs. -/

/-- C1: splitting `3fff::/26` to `/30` crosses the `/28` nibble boundary
(`nibbleBoundaries(26,30) = [28,30]`), so the claim requires four `/28`
intermediates each holding four `/30` children; the code instead creates
all 16 `/30` children flat under the `/26` node and materializes no `/28`
level at all (the same flat behavior falsifies Scenario C's 273-node
subtree for `split("3fff::/20", 28)`). -/
theorem c1_code_divergence :
    (let t1 := splitSubnet [(js "3fff::/26", emptyNode)] (js "3fff::/26") (some 30)
     childCountAt t1 (js "3fff::/26") = some 16 ∧
     (getKey t1 (js "3fff::/28")).isSome = false ∧
     (getKey t1 (js "3fff::/26")).map
       (fun n => (getKey n.children (js "3fff::/28")).isSome) = some false ∧
     (getKey t1 (js "3fff::/26")).map
       (fun n => (getKey n.children (js "3fff::/30")).isSome) = some true ∧
     (getKey t1 (js "3fff::/26")).map
       (fun n => n.children.all (fun kv => decide (kv.1.drop (kv.1.length - 3) = js "/30")))
       = some true) := by decide

/-- C2: splitting a root annotated `Data Center`/`#FF0000` creates all 16
children with empty `_note` and `_color` — the source's `splitSubnet`
assigns `{ _note: "", _color: "" }` to every child and never inherits the
parent's metadata, contradicting the claim (and the repository's own
tests for `createIntermediateLevel`). -/
theorem c2_code_divergence :
    (let t1 := splitSubnet [(js "3fff::/20", SNode.mk (js "Data Center") (js "#FF0000") [])]
      (js "3fff::/20") none
     childCountAt t1 (js "3fff::/20") = some 16 ∧
     noteAt t1 (js "3fff::/20") = some (js "Data Center") ∧
     (getKey t1 (js "3fff::/20")).map
       (fun n => n.children.all (fun kv => kv.2.note.isEmpty && kv.2.color.isEmpty))
       = some true) := by decide

/-- C3: split `3fff::/20` to `/22` (a valid non-nibble-aligned target),
then join from the resulting child `3fff::/22` back to `/20`: the upward
walk starts at `22 - 4 = 18 < 20`, never runs, so `joinSubnet` clears the
(empty) child list of the `/22` child itself; the `/20` node keeps all
four children instead of returning to a leaf. -/
theorem c3_code_divergence :
    (let t2 := splitSubnet [(js "3fff::/20", SNode.mk (js "N") (js "#FF0000") [])]
      (js "3fff::/20") (some 22)
     let t3 := joinSubnet t2 (js "3fff::/22") 20
     childCountAt t3 (js "3fff::/20") = some 4 ∧
     childCountAt t3 (js "3fff::/22") = some 0 ∧
     noteAt t3 (js "3fff::/20") = some (js "N")) := by decide

/-- C4: split the root, split its first child, annotate the child in the
flat index, then join back to `/20`.  The join removes only the root's
direct child keys: the flat index still holds the `3fff::/24` node with
its note and its 16 `/28` children (an orphan unreachable from the root),
and after re-splitting the root the orphan — note, grandchildren and all —
is what the flat index serves for the recreated `3fff::/24` child. -/
theorem c4_code_divergence :
    (let u1 := splitSubnet [(js "3fff::/20", emptyNode)] (js "3fff::/20") none
     let u2 := splitSubnet u1 (js "3fff::/24") none
     let u3 := setNote u2 (js "3fff::/24") (js "Secret")
     let u4 := joinSubnet u3 (js "3fff::/24") 20
     let u5 := splitSubnet u4 (js "3fff::/20") none
     childCountAt u4 (js "3fff::/20") = some 0 ∧
     (getKey u4 (js "3fff::/24")).map (fun n => (n.note, n.children.length))
       = some (js "Secret", 16) ∧
     (getKey u5 (js "3fff::/24")).map (fun n => (n.note, n.children.length))
       = some (js "Secret", 16) ∧
     childCountAt u5 (js "3fff::/20") = some 16) := by decide

/-! ## C8: formatter refinement (confirmed) -/

/-- `groupsOfBytes` halves the length. -/
theorem groupsOfBytes_length : ∀ l : List Nat, (groupsOfBytes l).length = l.length / 2
  | [] => by simp [groupsOfBytes]
  | [_] => by simp [groupsOfBytes]
  | _ :: _ :: rest => by
    simp only [groupsOfBytes, List.length_cons]
    rw [groupsOfBytes_length rest]
    omega

/-- Any length-8 list is an 8-tuple. -/
theorem exists_eight {α : Type} (gs : List α) (h : gs.length = 8) :
    ∃ a b c d e f g k, gs = [a, b, c, d, e, f, g, k] := by
  rcases gs with _ | ⟨a, _ | ⟨b, _ | ⟨c, _ | ⟨d, _ | ⟨e, _ | ⟨f, _ | ⟨g, _ | ⟨k, _ | ⟨x, t⟩⟩⟩⟩⟩⟩⟩⟩⟩ <;>
    simp only [List.length_cons, List.length_nil] at h <;> first
      | omega
      | exact ⟨a, b, c, d, e, f, g, k, rfl⟩

/-- The zero-run scan only inspects the zero pattern of the groups. -/
theorem findZeroRun_eq_runScanB (gs : List Nat) :
    findZeroRun gs = runScanB (gs.map (fun g => decide (g = 0))) := by
  unfold findZeroRun runScanB
  have hfold : ∀ (l : List (Nat × Nat)) (st : RunState),
      l.foldl (fun st p => runStep st p.1 (decide (p.2 = 0))) st
        = (l.map (Prod.map id (fun g => decide (g = 0)))).foldl
            (fun st q => runStep st q.1 q.2) st := by
    intro l
    induction l with
    | nil => intro st; rfl
    | cons p t ih =>
      intro st
      obtain ⟨i, g⟩ := p
      simp only [List.map_cons, List.foldl_cons, Prod.map, id]
      exact ih _
  rw [List.enum_map, ← hfold]

/-- The imperative scan agrees with the spec-side leftmost-longest-run
maximization on every 8-group zero pattern (by exhaustive evaluation). -/
theorem runScanB_spec : ∀ b0 b1 b2 b3 b4 b5 b6 b7 : Bool,
    (runScanB [b0, b1, b2, b3, b4, b5, b6, b7]).2
        = specRunLen [b0, b1, b2, b3, b4, b5, b6, b7] ∧
    (1 ≤ specRunLen [b0, b1, b2, b3, b4, b5, b6, b7] →
      (runScanB [b0, b1, b2, b3, b4, b5, b6, b7]).1
        = (specRunStart [b0, b1, b2, b3, b4, b5, b6, b7] : Int)) ∧
    specRunStart [b0, b1, b2, b3, b4, b5, b6, b7]
        + specRunLen [b0, b1, b2, b3, b4, b5, b6, b7] ≤ 8 ∧
    (specRunLen [b0, b1, b2, b3, b4, b5, b6, b7] = 8 →
      specRunStart [b0, b1, b2, b3, b4, b5, b6, b7] = 0) := by decide

/-- C8: on every 16-byte array, `formatIPv6` equals the spec-side
formatter built from the claim's words — longest zero run (leftmost on
ties), `::` only for runs of length at least 2, exactly `"::"` when the
run spans all 8 groups, lowercase minimal hex joined by `:` otherwise, and
no compression when no run of length ≥ 2 exists. -/
theorem c8_format_refinement (bytes : List Nat) (hlen : bytes.length = 16) :
    formatIPv6 bytes = formatSpecC8 bytes := by
  have hglen : (groupsOfBytes bytes).length = 8 := by rw [groupsOfBytes_length, hlen]
  unfold formatIPv6 formatSpecC8
  dsimp only
  set gs := groupsOfBytes bytes with hgs
  set p := gs.map (fun g => decide (g = 0)) with hpdef
  have hplen : p.length = 8 := by simp [hpdef, hglen]
  obtain ⟨b0, b1, b2, b3, b4, b5, b6, b7, hp⟩ := exists_eight p hplen
  have hspec := runScanB_spec b0 b1 b2 b3 b4 b5 b6 b7
  rw [← hp] at hspec
  obtain ⟨hlen2, hstart, hbound, hall⟩ := hspec
  have hrun : findZeroRun gs = runScanB p := findZeroRun_eq_runScanB gs
  rw [hrun]
  set L := specRunLen p with hLdef
  set S := specRunStart p with hSdef
  rw [hlen2]
  by_cases hL : L > 1
  · rw [if_pos hL, if_pos (by omega : 2 ≤ L)]
    have hstart2 : (runScanB p).1 = (S : Int) := hstart (by omega)
    rw [hstart2]
    simp only [Int.toNat_ofNat]
    by_cases h8 : L = 8
    · have hS0 : S = 0 := hall h8
      rw [if_pos ⟨by simp [hS0], by rw [hS0, h8]; norm_num⟩, if_pos h8]
    · rw [if_neg h8]
      have hc1 : ¬((S : Int) = 0 ∧ (S : Int) + (L : Int) = 8) := by
        rintro ⟨hz, hs⟩
        apply h8
        have h1 : S = 0 := by exact_mod_cast hz
        have h2 : S + L = 8 := by exact_mod_cast hs
        omega
      rw [if_neg hc1]
      by_cases hSz : S = 0
      · rw [if_pos (by exact_mod_cast hSz : (S : Int) = 0), if_pos hSz]
      · rw [if_neg (by exact_mod_cast hSz : ¬(S : Int) = 0), if_neg hSz]
        by_cases hse : S + L = 8
        · rw [if_pos (by exact_mod_cast hse : (S : Int) + (L : Int) = 8), if_pos hse]
        · rw [if_neg (by exact_mod_cast hse : ¬((S : Int) + (L : Int) = 8)), if_neg hse]
  · rw [if_neg hL, if_neg (by omega : ¬2 ≤ L)]

/-- C8 witness: the refinement at the documentation address
`2001:db8::1`. -/
theorem c8_format_refinement_witness :
    ([0x20, 0x01, 0x0d, 0xb8, 0, 0, 0, 0, 0, 0, 0, 0, 0, 0, 0, 1] : List Nat).length = 16 ∧
    formatIPv6 [0x20, 0x01, 0x0d, 0xb8, 0, 0, 0, 0, 0, 0, 0, 0, 0, 0, 0, 1]
      = formatSpecC8 [0x20, 0x01, 0x0d, 0xb8, 0, 0, 0, 0, 0, 0, 0, 0, 0, 0, 0, 1] :=
  ⟨by decide, c8_format_refinement _ (by decide)⟩

/-! ## C10: parse-format round trip (confirmed) — hex digit lemmas -/

/-- `digitsLE` digits re-fold to the number. -/
theorem digitsLE_val (b : Nat) (hb : 2 ≤ b) :
    ∀ fuel n : Nat, n ≤ fuel → digitsVal b ((digitsLE b fuel n).reverse) = n := by
  intro fuel
  induction fuel with
  | zero =>
    intro n hn
    interval_cases n
    simp [digitsLE, digitsVal]
  | succ f ih =>
    intro n hn
    by_cases h0 : n = 0
    · simp [digitsLE, h0, digitsVal]
    · have hrec : n / b ≤ f := by
        have h1 : n / b < n := Nat.div_lt_self (by omega) (by omega)
        omega
      simp only [digitsLE, if_neg h0, List.reverse_cons]
      show ((digitsLE b f (n / b)).reverse ++ [n % b]).foldl (fun a d => b * a + d) 0 = n
      rw [List.foldl_append]
      have hv := ih (n / b) hrec
      unfold digitsVal at hv
      rw [hv]
      simp only [List.foldl_cons, List.foldl_nil]
      exact Nat.div_add_mod n b

/-- `digitsLE` digits are below the base. -/
theorem digitsLE_lt (b : Nat) (hb : 0 < b) :
    ∀ fuel n : Nat, ∀ d ∈ digitsLE b fuel n, d < b := by
  intro fuel
  induction fuel with
  | zero => intro n d hd; simp [digitsLE] at hd
  | succ f ih =>
    intro n d hd
    by_cases h0 : n = 0
    · simp [digitsLE, h0] at hd
    · simp only [digitsLE, if_neg h0, List.mem_cons] at hd
      rcases hd with rfl | hd
      · exact Nat.mod_lt _ hb
      · exact ih (n / b) d hd

/-- Every character of `toHexStr` is a lowercase hex digit character. -/
theorem toHexStr_chars (n : Nat) :
    ∀ c ∈ toHexStr n, (48 ≤ c ∧ c ≤ 57) ∨ (97 ≤ c ∧ c ≤ 102) := by
  intro c hc
  unfold toHexStr at hc
  by_cases h0 : n = 0
  · simp [h0] at hc
    omega
  · simp only [if_neg h0, List.mem_map, List.mem_reverse] at hc
    obtain ⟨d, hd, rfl⟩ := hc
    have := digitsLE_lt 16 (by norm_num) n n d hd
    by_cases hlt : d < 10 <;> simp [hlt] <;> omega

/-- `toHexStr` is never empty. -/
theorem toHexStr_ne_nil (n : Nat) : toHexStr n ≠ [] := by
  unfold toHexStr
  by_cases h0 : n = 0
  · simp [h0]
  · simp only [if_neg h0, ne_eq, List.map_eq_nil_iff, List.reverse_eq_nil_iff]
    intro h
    have : digitsVal 16 ((digitsLE 16 n n).reverse) = n := digitsLE_val 16 (by norm_num) n n le_rfl
    rw [h] at this
    simp [digitsVal] at this
    exact h0 this.symm

/-- A hex-digit character is not whitespace, a sign, a colon, an `x`, or
uppercase. -/
theorem hexDigitChar_props (c : Nat) (h : (48 ≤ c ∧ c ≤ 57) ∨ (97 ≤ c ∧ c ≤ 102)) :
    isJsWs c = false ∧ c ≠ 45 ∧ c ≠ 43 ∧ c ≠ 58 ∧ c ≠ 120 ∧ c ≠ 88 ∧
      ¬(65 ≤ c ∧ c ≤ 90) := by
  unfold isJsWs
  simp only [Bool.or_eq_false_iff, decide_eq_false_iff_not, Bool.and_eq_false_iff,
    decide_eq_false_iff_not, not_le, ne_eq]
  omega

/-- Dropping leading whitespace does nothing to an all-non-ws string. -/
theorem dropWhile_eq_self_of_all {f : Nat → Bool} (s : JsStr)
    (h : ∀ c ∈ s, f c = false) : s.dropWhile f = s := by
  cases s with
  | nil => rfl
  | cons c t =>
    rw [List.dropWhile_cons]
    simp [h c (by simp)]

/-- Trim does nothing to an all-non-ws string. -/
theorem trimJs_eq_self (s : JsStr) (h : ∀ c ∈ s, isJsWs c = false) : trimJs s = s := by
  unfold trimJs
  rw [dropWhile_eq_self_of_all s h,
    dropWhile_eq_self_of_all s.reverse (fun c hc => h c (List.mem_reverse.mp hc)),
    List.reverse_reverse]

/-- ASCII lowercasing does nothing to a string without uppercase
letters. -/
theorem toLowerJs_eq_self (s : JsStr) (h : ∀ c ∈ s, ¬(65 ≤ c ∧ c ≤ 90)) :
    toLowerJs s = s := by
  induction s with
  | nil => rfl
  | cons c t ih =>
    unfold toLowerJs at *
    simp only [List.map_cons, List.cons.injEq]
    exact ⟨by simp [h c (by simp)], ih (fun x hx => h x (by simp [hx]))⟩

/-- `digitRun` reads back an all-digit rendered string. -/
theorem digitRun_map_hexChar (ds : List Nat) (h : ∀ d ∈ ds, d < 16) :
    digitRun hexVal (ds.map (fun d => if d < 10 then 48 + d else 87 + d)) = ds := by
  induction ds with
  | nil => rfl
  | cons d t ih =>
    have hd : d < 16 := h d (by simp)
    have hv : hexVal (if d < 10 then 48 + d else 87 + d) = some d := by
      unfold hexVal
      by_cases hlt : d < 10
      · simp only [if_pos hlt]
        rw [if_pos (by omega)]
        congr 1
        omega
      · simp only [if_neg hlt]
        rw [if_neg (by omega), if_pos (by omega)]
        congr 1
        omega
    simp only [List.map_cons, digitRun, hv]
    rw [ih (fun x hx => h x (by simp [hx]))]

/-- On a nonempty all-hex-digit string, JS `parseInt(s, 16)` returns the
digits' value. -/
theorem jsParseInt16_all_digits (s : JsStr) (hne : s ≠ [])
    (hchars : ∀ c ∈ s, (48 ≤ c ∧ c ≤ 57) ∨ (97 ≤ c ∧ c ≤ 102)) :
    jsParseInt16 s = some ((digitsVal 16 (digitRun hexVal s) : Nat) : Int) := by
  have hhead : ∀ c, s.head? = some c → (48 ≤ c ∧ c ≤ 57) ∨ (97 ≤ c ∧ c ≤ 102) := by
    intro c hc
    apply hchars
    cases s with
    | nil => simp at hc
    | cons a t =>
      simp only [List.head?_cons, Option.some.injEq] at hc
      simp [hc]
  have hsign : ¬(s.head? = some 45 ∨ s.head? = some 43) := by
    rintro (h | h) <;> have := hhead _ h <;> omega
  have hnegf : decide (s.head? = some 45) = false := by
    simp only [decide_eq_false_iff_not]
    intro h
    have := hhead _ h
    omega
  have hrunne : ¬(digitRun hexVal s).isEmpty = true := by
    cases s with
    | nil => exact absurd rfl hne
    | cons a t =>
      have ha := hchars a (by simp)
      have : ∃ v, hexVal a = some v := by
        unfold hexVal
        rcases ha with h1 | h2
        · exact ⟨a - 48, by rw [if_pos (by omega)]⟩
        · refine ⟨a - 87, ?_⟩
          rw [if_neg (by omega), if_pos (by omega)]
      obtain ⟨v, hv⟩ := this
      simp [digitRun, hv]
  have hstrip : strip0x s = s := by
    unfold strip0x
    split
    · have := hchars 120 (by simp_all)
      omega
    · have := hchars 88 (by simp_all)
      omega
    · rfl
  unfold jsParseInt16
  dsimp only
  rw [dropWhile_eq_self_of_all s (fun c hc => (hexDigitChar_props c (hchars c hc)).1),
    hnegf, if_neg hsign, hstrip, if_neg hrunne]
  simp

/-- JS `parseInt(·, 16)` inverts `toHexStr` for every natural number. -/
theorem jsParseInt16_toHexStr (n : Nat) : jsParseInt16 (toHexStr n) = some (n : Int) := by
  rw [jsParseInt16_all_digits (toHexStr n) (toHexStr_ne_nil n) (toHexStr_chars n)]
  congr 1
  by_cases h0 : n = 0
  · subst h0
    decide
  · unfold toHexStr
    simp only [if_neg h0]
    rw [digitRun_map_hexChar _
      (fun d hd => digitsLE_lt 16 (by norm_num) n n d (List.mem_reverse.mp hd))]
    exact_mod_cast digitsLE_val 16 (by norm_num) n n le_rfl

/-! C10: bytes → groups → bytes -/

/-- `toInt32` is the identity below `2^31`. -/
theorem toInt32_small (v : Int) (h0 : 0 ≤ v) (h1 : v < 2147483648) : toInt32 v = v := by
  unfold toInt32
  dsimp only
  rw [Int.emod_eq_of_lt h0 (by omega)]
  rw [if_neg (by omega)]

/-- The high byte recovered from a packed group. -/
theorem jsByteHi_group (b0 b1 : Nat) (h0 : b0 < 256) (h1 : b1 < 256) :
    jsByteHi (((b0 <<< 8 ||| b1 : Nat) : Int)) = b0 := by
  rw [lor_byte_step b0 b1 h1]
  unfold jsByteHi
  rw [toInt32_small _ (by positivity) (by exact_mod_cast by omega),
    Int.fdiv_eq_ediv _ (by norm_num)]
  push_cast
  omega

/-- The low byte recovered from a packed group. -/
theorem jsByteLo_group (b0 b1 : Nat) (h0 : b0 < 256) (h1 : b1 < 256) :
    jsByteLo (((b0 <<< 8 ||| b1 : Nat) : Int)) = b1 := by
  rw [lor_byte_step b0 b1 h1]
  unfold jsByteLo
  rw [toInt32_small _ (by positivity) (by exact_mod_cast by omega)]
  push_cast
  omega

/-- Every group value packed by `groupsOfBytes` is below `0x10000`. -/
theorem groupsOfBytes_bound : ∀ bytes : List Nat, (∀ b ∈ bytes, b < 256) →
    ∀ g ∈ groupsOfBytes bytes, g < 65536
  | [], _, g, hg => by simp [groupsOfBytes] at hg
  | [b], _, g, hg => by simp [groupsOfBytes] at hg
  | b0 :: b1 :: rest, hb, g, hg => by
    simp only [groupsOfBytes, List.mem_cons] at hg
    rcases hg with hg | hg
    · have h0 : b0 < 256 := hb b0 (by simp)
      have h1 : b1 < 256 := hb b1 (by simp)
      rw [hg, lor_byte_step b0 b1 h1]
      omega
    · exact groupsOfBytes_bound rest (fun b hbmem => hb b (by simp [hbmem])) g hg

/-- `mkBytes` undoes `groupsOfBytes` on even-length byte arrays. -/
theorem mkBytes_groups : ∀ n (bytes : List Nat), bytes.length ≤ n →
    (∀ b ∈ bytes, b < 256) → bytes.length % 2 = 0 →
    mkBytes ((groupsOfBytes bytes).map (fun g => ((g : Nat) : Int))) = bytes := by
  intro n
  induction n with
  | zero =>
    intro bytes hlen _ _
    have : bytes = [] := List.length_eq_zero.mp (by omega)
    subst this
    rfl
  | succ m ih =>
    intro bytes hlen hb hev
    match bytes with
    | [] => rfl
    | [b] => simp at hev
    | b0 :: b1 :: rest =>
      have h0 : b0 < 256 := hb b0 (by simp)
      have h1 : b1 < 256 := hb b1 (by simp)
      simp only [groupsOfBytes, List.map_cons, mkBytes]
      rw [jsByteHi_group b0 b1 h0 h1, jsByteLo_group b0 b1 h0 h1,
        ih rest (by simp at hlen ⊢; omega) (fun b hm => hb b (by simp [hm]))
          (by simp at hev ⊢; omega)]

/-! C10: parseGroups on rendered groups -/

/-- `parseGroups` distributes over append. -/
theorem parseGroups_append (xs ys : List JsStr) (vx vy : List Int)
    (hx : parseGroups xs = some vx) (hy : parseGroups ys = some vy) :
    parseGroups (xs ++ ys) = some (vx ++ vy) := by
  induction xs generalizing vx with
  | nil =>
    simp only [parseGroups, Option.some.injEq] at hx
    simpa [← hx] using hy
  | cons g t iht =>
    rw [List.cons_append]
    cases hj : jsParseInt16 g with
    | none => simp [parseGroups, hj] at hx
    | some v =>
      simp only [parseGroups, hj] at hx ⊢
      by_cases hv : v > 65535
      · simp [if_pos hv] at hx
      · simp only [if_neg hv] at hx ⊢
        cases ht : parseGroups t with
        | none => simp [ht] at hx
        | some vt =>
          simp only [ht, Option.some.injEq] at hx
          rw [iht vt ht]
          simp [← hx]

/-- `parseGroups` accepts every rendered group list and recovers the
values. -/
theorem parseGroups_map_toHexStr (gs : List Nat) (h : ∀ g ∈ gs, g < 65536) :
    parseGroups (gs.map toHexStr) = some (gs.map (fun g => ((g : Nat) : Int))) := by
  induction gs with
  | nil => rfl
  | cons g t ih =>
    simp only [List.map_cons, parseGroups, jsParseInt16_toHexStr g]
    rw [if_neg (by have := h g (by simp); omega),
      ih (fun x hx => h x (by simp [hx]))]

/-! C10: colon structure of rendered strings -/

/-- Unfolding `joinColon` one part at a time. -/
theorem joinColon_cons (q : JsStr) (u : List JsStr) :
    joinColon (q :: u) = q ++ (if u.isEmpty then [] else 58 :: joinColon u) := by
  cases u with
  | nil => simp [joinColon]
  | cons r s => rfl

/-- Every character of a colon-join is a colon or comes from a part. -/
theorem joinColon_mem : ∀ (ps : List JsStr) (c : Nat), c ∈ joinColon ps →
    c = 58 ∨ ∃ p ∈ ps, c ∈ p
  | [], c, hc => by simp [joinColon] at hc
  | [p], c, hc => Or.inr ⟨p, by simp, hc⟩
  | p :: q :: u, c, hc => by
    rw [show joinColon (p :: q :: u) = p ++ 58 :: joinColon (q :: u) from rfl] at hc
    rcases List.mem_append.mp hc with h | h
    · exact Or.inr ⟨p, by simp, h⟩
    · rcases List.mem_cons.mp h with h | h
      · exact Or.inl h
      · rcases joinColon_mem (q :: u) c h with h | ⟨r, hr, hcr⟩
        · exact Or.inl h
        · exact Or.inr ⟨r, by simp only [List.mem_cons] at hr ⊢; tauto, hcr⟩

/-- A colon-join of parts headed by a nonempty part is nonempty. -/
theorem joinColon_ne_nil (p : JsStr) (t : List JsStr) (hp : p ≠ []) :
    joinColon (p :: t) ≠ [] := by
  rw [joinColon_cons]
  exact fun h => hp (List.append_eq_nil.mp h).1

/-- `split(":")` on a separator-free string yields one part. -/
theorem splitOnChar_no_sep (sep : Nat) (s : JsStr) (h : ∀ c ∈ s, c ≠ sep) :
    splitOnChar sep s = [s] := by
  induction s with
  | nil => rfl
  | cons c t ih =>
    simp only [splitOnChar, if_neg (h c (by simp)),
      ih (fun x hx => h x (by simp [hx]))]

/-- `split(":")` peels a leading separator-free part. -/
theorem splitOnChar_append (sep : Nat) (p : JsStr) (rest : JsStr)
    (h : ∀ c ∈ p, c ≠ sep) :
    splitOnChar sep (p ++ sep :: rest) = p :: splitOnChar sep rest := by
  induction p with
  | nil => simp [splitOnChar]
  | cons c t ih =>
    rw [List.cons_append]
    simp only [splitOnChar, if_neg (h c (by simp)),
      ih (fun x hx => h x (by simp [hx]))]

/-- `split(":")` inverts `join(":")` on colon-free parts. -/
theorem splitOnChar_join : ∀ (ps : List JsStr), ps ≠ [] →
    (∀ p ∈ ps, ∀ c ∈ p, c ≠ 58) → splitOnChar 58 (joinColon ps) = ps
  | [], h, _ => absurd rfl h
  | [p], _, hc => splitOnChar_no_sep 58 p (hc p (by simp))
  | p :: q :: u, _, hc => by
    rw [show joinColon (p :: q :: u) = p ++ 58 :: joinColon (q :: u) from rfl,
      splitOnChar_append 58 p _ (hc p (by simp)),
      splitOnChar_join (q :: u) (by simp)
        (fun r hr => hc r (by simp only [List.mem_cons] at hr ⊢; tauto))]

/-- `breakColonColon` slides over a colon-free prefix. -/
theorem breakCC_append_nc (p : JsStr) (hp : ∀ c ∈ p, c ≠ 58) :
    ∀ rest, breakColonColon (p ++ rest)
      = (breakColonColon rest).map (fun q => (p ++ q.1, q.2)) := by
  induction p with
  | nil =>
    intro rest
    cases h : breakColonColon rest <;> simp [h]
  | cons c t ih =>
    intro rest
    rw [List.cons_append]
    cases h : t ++ rest with
    | nil =>
      obtain ⟨ht, hr⟩ := List.append_eq_nil.mp h
      subst hr
      rfl
    | cons c2 r =>
      simp only [breakColonColon]
      rw [if_neg (fun hand => hp c (by simp) hand.1), ← h,
        ih (fun x hx => hp x (by simp [hx])) rest]
      cases breakColonColon rest with
      | none => rfl
      | some q => obtain ⟨l, r'⟩ := q; rfl

/-- A colon-free string holds no `"::"`. -/
theorem breakCC_nc (p : JsStr) (hp : ∀ c ∈ p, c ≠ 58) :
    breakColonColon p = none := by
  have h := breakCC_append_nc p hp []
  simpa using h

/-- A colon-join of nonempty colon-free parts holds no `"::"`. -/
theorem breakCC_join_none : ∀ (ps : List JsStr),
    (∀ p ∈ ps, p ≠ [] ∧ ∀ c ∈ p, c ≠ 58) →
    breakColonColon (joinColon ps) = none
  | [], _ => rfl
  | [p], h => breakCC_nc p (h p (by simp)).2
  | p :: q :: u, h => by
    rw [show joinColon (p :: q :: u) = p ++ 58 :: joinColon (q :: u) from rfl,
      breakCC_append_nc p (h p (by simp)).2]
    obtain ⟨qc, qt, hq⟩ : ∃ qc qt, q = qc :: qt := by
      cases q with
      | nil => exact absurd rfl (h [] (by simp)).1
      | cons a b => exact ⟨a, b, rfl⟩
    have hhead : joinColon (q :: u)
        = qc :: (qt ++ if u.isEmpty then [] else 58 :: joinColon u) := by
      rw [joinColon_cons, hq, List.cons_append]
    rw [hhead]
    simp only [breakColonColon]
    rw [if_neg (fun hand =>
        ((h q (by simp)).2 qc (by rw [hq]; simp)) hand.2),
      ← hhead,
      breakCC_join_none (q :: u)
        (fun r hr => h r (by simp only [List.mem_cons] at hr ⊢; tauto))]
    rfl

/-- `breakColonColon` finds the compression marker after a `"::"`-free
colon-join. -/
theorem breakCC_join_cc : ∀ (ps : List JsStr) (R : JsStr),
    (∀ p ∈ ps, p ≠ [] ∧ ∀ c ∈ p, c ≠ 58) →
    breakColonColon (joinColon ps ++ 58 :: 58 :: R) = some (joinColon ps, R)
  | [], R, _ => by simp [joinColon, breakColonColon]
  | [p], R, h => by
    rw [show joinColon [p] = p from rfl,
      breakCC_append_nc p (h p (by simp)).2 (58 :: 58 :: R)]
    simp [breakColonColon]
  | p :: q :: u, R, h => by
    rw [show joinColon (p :: q :: u) = p ++ 58 :: joinColon (q :: u) from rfl,
      List.append_assoc,
      breakCC_append_nc p (h p (by simp)).2,
      List.cons_append]
    obtain ⟨qc, qt, hq⟩ : ∃ qc qt, q = qc :: qt := by
      cases q with
      | nil => exact absurd rfl (h [] (by simp)).1
      | cons a b => exact ⟨a, b, rfl⟩
    have hhead : joinColon (q :: u) ++ 58 :: 58 :: R
        = qc :: ((qt ++ if u.isEmpty then [] else 58 :: joinColon u) ++ 58 :: 58 :: R) := by
      rw [joinColon_cons, hq]
      simp [List.append_assoc]
    rw [hhead]
    simp only [breakColonColon]
    rw [if_neg (fun hand =>
        ((h q (by simp)).2 qc (by rw [hq]; simp)) hand.2),
      ← hhead,
      breakCC_join_cc (q :: u) R
        (fun r hr => h r (by simp only [List.mem_cons] at hr ⊢; tauto))]
    rfl

/-- The split worker stops on a `"::"`-free string at any fuel. -/
theorem splitCCAux_none (R : JsStr) (h : breakColonColon R = none) :
    ∀ fuel, splitCCAux fuel R = [R]
  | 0 => rfl
  | fuel + 1 => by simp [splitCCAux, h]

/-- `split("::")` on a compressed rendering yields the two sides. -/
theorem splitCC_join_cc (ps : List JsStr) (R : JsStr)
    (hps : ∀ p ∈ ps, p ≠ [] ∧ ∀ c ∈ p, c ≠ 58)
    (hR : breakColonColon R = none) :
    splitColonColon (joinColon ps ++ 58 :: 58 :: R) = [joinColon ps, R] := by
  unfold splitColonColon
  obtain ⟨k, hk⟩ : ∃ k, (joinColon ps ++ 58 :: 58 :: R).length = k + 1 := by
    refine ⟨(joinColon ps).length + R.length + 1, ?_⟩
    simp only [List.length_append, List.length_cons]
    omega
  rw [hk]
  simp only [splitCCAux, breakCC_join_cc ps R hps]
  rw [splitCCAux_none R hR]

/-! C10: the chosen zero run is really made of zero groups -/

/-- The spec-side run covers only positions whose group is zero (by
exhaustive evaluation over the 8-group zero patterns). -/
theorem specRun_mem : ∀ b0 b1 b2 b3 b4 b5 b6 b7 : Bool, ∀ i, i < 8 →
    specRunStart [b0, b1, b2, b3, b4, b5, b6, b7] ≤ i →
    i < specRunStart [b0, b1, b2, b3, b4, b5, b6, b7]
        + specRunLen [b0, b1, b2, b3, b4, b5, b6, b7] →
    [b0, b1, b2, b3, b4, b5, b6, b7].getD i false = true := by decide

/-- A list whose `[s, s+n)` window is all zero splits as
take/replicate/drop. -/
theorem eq_take_replicate_drop (l : List Nat) (s n : Nat) (hsn : s + n ≤ l.length)
    (hz : ∀ i, s ≤ i → i < s + n → l.getD i 0 = 0) :
    l.take s ++ (List.replicate n 0 ++ l.drop (s + n)) = l := by
  have hmid : List.replicate n 0 = (l.drop s).take n := by
    symm
    rw [List.eq_replicate_iff]
    constructor
    · rw [List.length_take, List.length_drop]
      omega
    · intro b hb
      obtain ⟨i, hi, hbi⟩ := List.mem_iff_getElem.mp hb
      have hil : i < n := by
        have := hi
        rw [List.length_take, List.length_drop] at this
        omega
      have hsi : s + i < l.length := by
        have := hi
        rw [List.length_take, List.length_drop] at this
        omega
      rw [List.getElem_take, List.getElem_drop] at hbi
      have hz2 := hz (s + i) (by omega) (by omega)
      rw [List.getD_eq_getElem l 0 hsi] at hz2
      rw [← hbi]
      exact hz2
  have hdd : l.drop (s + n) = (l.drop s).drop n := by
    rw [List.drop_drop, Nat.add_comm]
  rw [hmid, hdd, List.take_append_drop n (l.drop s), List.take_append_drop s l]

/-! C10: rendered parts are well formed -/

/-- Rendered group strings are nonempty and colon-free. -/
theorem hexParts_ok (gs : List Nat) :
    ∀ p ∈ gs.map toHexStr, p ≠ [] ∧ ∀ c ∈ p, c ≠ 58 := by
  intro p hp
  obtain ⟨n, hn, rfl⟩ := List.mem_map.mp hp
  refine ⟨toHexStr_ne_nil n, fun c hcp => ?_⟩
  have := toHexStr_chars n c hcp
  omega

/-- Every character of a rendered colon-join is a hex digit or a colon. -/
theorem joinColon_hex_chars (gs : List Nat) :
    ∀ c ∈ joinColon (gs.map toHexStr),
      (48 ≤ c ∧ c ≤ 57) ∨ (97 ≤ c ∧ c ≤ 102) ∨ c = 58 := by
  intro c hc
  rcases joinColon_mem _ c hc with h | ⟨p, hp, hcp⟩
  · tauto
  · obtain ⟨n, hn, rfl⟩ := List.mem_map.mp hp
    rcases toHexStr_chars n c hcp with h | h <;> tauto

/-- Hex digits and the colon are neither whitespace nor uppercase. -/
theorem hexColonChar_props (c : Nat)
    (h : (48 ≤ c ∧ c ≤ 57) ∨ (97 ≤ c ∧ c ≤ 102) ∨ c = 58) :
    isJsWs c = false ∧ ¬(65 ≤ c ∧ c ≤ 90) := by
  unfold isJsWs
  simp only [Bool.or_eq_false_iff, decide_eq_false_iff_not, Bool.and_eq_false_iff,
    decide_eq_false_iff_not, not_le, ne_eq]
  omega

/-- The per-side split of `parseIPv6` recovers the rendered group list. -/
theorem splitJoinPart (gs : List Nat) :
    (if (joinColon (gs.map toHexStr)).isEmpty then []
     else splitOnChar 58 (joinColon (gs.map toHexStr))) = gs.map toHexStr := by
  cases gs with
  | nil => rfl
  | cons g t =>
    have hnil : joinColon ((g :: t).map toHexStr) ≠ [] := by
      rw [List.map_cons]
      exact joinColon_ne_nil _ _ (toHexStr_ne_nil g)
    rw [if_neg (by simpa using hnil)]
    exact splitOnChar_join _ (by simp)
      (fun p hp c hcp => ((hexParts_ok _ p hp).2 c hcp))

/-- An all-nonempty length-8 part list passes the group-defaulting map of
`parseIPv6` unchanged. -/
theorem map_range_getD (l : List JsStr) (hlen : l.length = 8)
    (hne : ∀ p ∈ l, p ≠ []) :
    (List.range 8).map
        (fun i => if (l.getD i []).isEmpty then js "0" else l.getD i []) = l := by
  obtain ⟨p0, p1, p2, p3, p4, p5, p6, p7, hp⟩ := exists_eight l hlen
  subst hp
  have he : ∀ p : JsStr, p ≠ [] → (if p.isEmpty then js "0" else p) = p := by
    intro p hpne
    rw [if_neg (by simpa using hpne)]
  show [if p0.isEmpty then js "0" else p0, if p1.isEmpty then js "0" else p1,
    if p2.isEmpty then js "0" else p2, if p3.isEmpty then js "0" else p3,
    if p4.isEmpty then js "0" else p4, if p5.isEmpty then js "0" else p5,
    if p6.isEmpty then js "0" else p6, if p7.isEmpty then js "0" else p7] = _
  rw [he p0 (hne p0 (by simp)), he p1 (hne p1 (by simp)), he p2 (hne p2 (by simp)),
    he p3 (hne p3 (by simp)), he p4 (hne p4 (by simp)), he p5 (hne p5 (by simp)),
    he p6 (hne p6 (by simp)), he p7 (hne p7 (by simp))]

/-- C10: for every 16-byte array `b`, `parseIPv6 (formatIPv6 b)` returns
`some b` — parsing is a left inverse of formatting at the byte level, so
the compressed text emitted by `formatIPv6` never loses or alters address
bits. -/
theorem c10_parse_format_roundtrip (bytes : List Nat) (h : wfBytes bytes = true) :
    parseIPv6 (formatIPv6 bytes) = some bytes := by
  have hw := h
  unfold wfBytes at hw
  simp only [Bool.and_eq_true, decide_eq_true_eq, List.all_eq_true,
    decide_eq_true_eq] at hw
  obtain ⟨hlen16, hbnd⟩ := hw
  set gs := groupsOfBytes bytes with hgs
  have hglen : gs.length = 8 := by rw [hgs, groupsOfBytes_length]; omega
  have hgbnd : ∀ g ∈ gs, g < 65536 := by
    rw [hgs]
    exact groupsOfBytes_bound bytes hbnd
  rw [c8_format_refinement bytes hlen16]
  set p := gs.map (fun g => decide (g = 0)) with hpdef
  have hplen : p.length = 8 := by simp [hpdef, hglen]
  obtain ⟨b0, b1, b2, b3, b4, b5, b6, b7, hp⟩ := exists_eight p hplen
  set S := specRunStart p with hS
  set L := specRunLen p with hL
  have hbound : S + L ≤ 8 := by
    rw [hS, hL, hp]
    exact (runScanB_spec b0 b1 b2 b3 b4 b5 b6 b7).2.2.1
  have hall8 : L = 8 → S = 0 := by
    rw [hS, hL, hp]
    exact (runScanB_spec b0 b1 b2 b3 b4 b5 b6 b7).2.2.2
  have hzero : ∀ i, S ≤ i → i < S + L → gs.getD i 0 = 0 := by
    intro i h1 h2
    have hi8 : i < 8 := by omega
    have hm := specRun_mem b0 b1 b2 b3 b4 b5 b6 b7 i hi8
      (by rw [hS, hp] at h1; exact h1) (by rw [hS, hL, hp] at h2; exact h2)
    rw [← hp, hpdef] at hm
    have hig : i < gs.length := by omega
    rw [List.getD_eq_getElem _ false (by simp [hglen]; omega), List.getElem_map] at hm
    simp only [decide_eq_true_eq] at hm
    rw [List.getD_eq_getElem gs 0 hig]
    exact hm
  have hjs2 : js "::" = [58, 58] := by decide
  by_cases hc : 2 ≤ L
  · -- compressed rendering
    set LT := joinColon ((gs.take S).map toHexStr) with hLT
    set RT := joinColon ((gs.drop (S + L)).map toHexStr) with hRT
    have hout : formatSpecC8 bytes = LT ++ 58 :: 58 :: RT := by
      unfold formatSpecC8
      dsimp only
      rw [← hgs, ← hpdef, ← hS, ← hL, ← hLT, ← hRT, if_pos hc]
      by_cases h8 : L = 8
      · rw [if_pos h8]
        have hS0 : S = 0 := hall8 h8
        have hLTe : LT = [] := by rw [hLT, hS0]; rfl
        have hRTe : RT = [] := by
          rw [hRT, List.drop_eq_nil_of_le (by omega)]
          rfl
        rw [hLTe, hRTe, hjs2]
        rfl
      · rw [if_neg h8]
        by_cases hS0 : S = 0
        · rw [if_pos hS0, hjs2]
          have hLTe : LT = [] := by rw [hLT, hS0]; rfl
          rw [hLTe]
          rfl
        · rw [if_neg hS0]
          by_cases hE : S + L = 8
          · rw [if_pos hE, hjs2]
            have hRTe : RT = [] := by
              rw [hRT, List.drop_eq_nil_of_le (by omega)]
              rfl
            rw [hRTe]
          · rw [if_neg hE, hjs2, List.append_assoc]
            rfl
    rw [hout]
    unfold parseIPv6
    dsimp only
    have hchars : ∀ c ∈ LT ++ 58 :: 58 :: RT,
        (48 ≤ c ∧ c ≤ 57) ∨ (97 ≤ c ∧ c ≤ 102) ∨ c = 58 := by
      intro c hcm
      rcases List.mem_append.mp hcm with h1 | h1
      · exact joinColon_hex_chars _ c (by rw [hLT] at h1; exact h1)
      · rcases List.mem_cons.mp h1 with h2 | h2
        · tauto
        · rcases List.mem_cons.mp h2 with h3 | h3
          · tauto
          · exact joinColon_hex_chars _ c (by rw [hRT] at h3; exact h3)
    rw [trimJs_eq_self _ (fun c hcm => (hexColonChar_props c (hchars c hcm)).1),
      toLowerJs_eq_self _ (fun c hcm => (hexColonChar_props c (hchars c hcm)).2)]
    have hbrk : breakColonColon (LT ++ 58 :: 58 :: RT) = some (LT, RT) := by
      rw [hLT]
      exact breakCC_join_cc _ RT (hexParts_ok _)
    rw [hbrk, if_pos (Option.isSome_some)]
    have hsplit : splitColonColon (LT ++ 58 :: 58 :: RT) = [LT, RT] := by
      rw [hLT]
      exact splitCC_join_cc _ RT (hexParts_ok _)
        (by rw [hRT]; exact breakCC_join_none _ (hexParts_ok _))
    rw [hsplit, if_neg (by simp)]
    simp only [List.getD_cons_zero, List.getD_cons_succ]
    rw [hLT, hRT, splitJoinPart (gs.take S), splitJoinPart (gs.drop (S + L))]
    have hlenL : ((gs.take S).map toHexStr).length = S := by
      rw [List.length_map, List.length_take, hglen]
      omega
    have hlenR : ((gs.drop (S + L)).map toHexStr).length = 8 - (S + L) := by
      rw [List.length_map, List.length_drop, hglen]
    rw [hlenL, hlenR]
    have hmiss : 8 - S - (8 - (S + L)) = L := by omega
    rw [hmiss,
      show List.replicate L (js "0") = (List.replicate L 0).map toHexStr
        from by rw [show js "0" = toHexStr 0 from by decide, List.map_replicate],
      List.append_assoc, ← List.map_append, ← List.map_append,
      eq_take_replicate_drop gs S L (by omega) hzero,
      map_range_getD (gs.map toHexStr) (by simp [hglen])
        (fun q hq => (hexParts_ok gs q hq).1),
      parseGroups_map_toHexStr gs hgbnd]
    simp only [Option.map_some']
    rw [hgs, mkBytes_groups 16 bytes (by omega) hbnd (by omega)]
  · -- uncompressed rendering
    have hout : formatSpecC8 bytes = joinColon (gs.map toHexStr) := by
      unfold formatSpecC8
      dsimp only
      rw [← hgs, ← hpdef, ← hL, if_neg hc]
    rw [hout]
    unfold parseIPv6
    dsimp only
    have hchars := joinColon_hex_chars gs
    rw [trimJs_eq_self _ (fun c hcm => (hexColonChar_props c (hchars c hcm)).1),
      toLowerJs_eq_self _ (fun c hcm => (hexColonChar_props c (hchars c hcm)).2),
      breakCC_join_none _ (hexParts_ok gs)]
    rw [if_neg (by simp)]
    have hgs_ne : gs.map toHexStr ≠ [] := by
      simp only [ne_eq, List.map_eq_nil_iff]
      intro hnil
      rw [hnil] at hglen
      simp at hglen
    rw [splitOnChar_join (gs.map toHexStr) hgs_ne
        (fun q hq c hcq => (hexParts_ok gs q hq).2 c hcq),
      if_neg (by simp [List.length_map, hglen]),
      parseGroups_map_toHexStr gs hgbnd]
    simp only [Option.map_some']
    rw [hgs, mkBytes_groups 16 bytes (by omega) hbnd (by omega)]

/-- C10 witness: the round trip at the bytes of `2001:db8::1`. -/
theorem c10_parse_format_roundtrip_witness :
    wfBytes [0x20, 0x01, 0x0d, 0xb8, 0, 0, 0, 0, 0, 0, 0, 0, 0, 0, 0, 1] = true ∧
    parseIPv6 (formatIPv6 [0x20, 0x01, 0x0d, 0xb8, 0, 0, 0, 0, 0, 0, 0, 0, 0, 0, 0, 1])
      = some [0x20, 0x01, 0x0d, 0xb8, 0, 0, 0, 0, 0, 0, 0, 0, 0, 0, 0, 1] :=
  ⟨by decide, c10_parse_format_roundtrip _ (by decide)⟩

/-! ## C9 — base64 layer -/

/-- `b64Val` inverts the base64 alphabet. -/
theorem b64Val_b64Char : ∀ v : Nat, v < 64 → b64Val (b64Char v) = some v := by decide

/-- The base64 alphabet never emits the padding character. -/
theorem b64Char_ne_61 : ∀ v : Nat, v < 64 → b64Char v ≠ 61 := by decide

/-- Disjoint or is addition, 2-bit low part. -/
theorem lor_mul4 (a b : Nat) (hb : b < 4) : (a * 4) ||| b = a * 4 + b := by
  have h2 : (2 : Nat) ^ 2 = 4 := by norm_num
  have h := lor_mul_pow_eq_add a b 2 (by rw [h2]; exact hb)
  rw [h2] at h
  exact h

/-- Disjoint or is addition, 4-bit low part. -/
theorem lor_mul16 (a b : Nat) (hb : b < 16) : (a * 16) ||| b = a * 16 + b := by
  have h2 : (2 : Nat) ^ 4 = 16 := by norm_num
  have h := lor_mul_pow_eq_add a b 4 (by rw [h2]; exact hb)
  rw [h2] at h
  exact h

/-- Disjoint or is addition, 6-bit low part. -/
theorem lor_mul64 (a b : Nat) (hb : b < 64) : (a * 64) ||| b = a * 64 + b := by
  have h2 : (2 : Nat) ^ 6 = 64 := by norm_num
  have h := lor_mul_pow_eq_add a b 6 (by rw [h2]; exact hb)
  rw [h2] at h
  exact h

/-- Left shifts as multiplications. -/
theorem shiftl2 (a : Nat) : a <<< 2 = a * 4 := by rw [Nat.shiftLeft_eq]

theorem shiftl4 (a : Nat) : a <<< 4 = a * 16 := by rw [Nat.shiftLeft_eq]

theorem shiftl6 (a : Nat) : a <<< 6 = a * 64 := by rw [Nat.shiftLeft_eq]

/-- Right shifts as divisions. -/
theorem shiftr2 (a : Nat) : a >>> 2 = a / 4 := by
  rw [Nat.shiftRight_eq_div_pow]

theorem shiftr4 (a : Nat) : a >>> 4 = a / 16 := by
  rw [Nat.shiftRight_eq_div_pow]

theorem shiftr6 (a : Nat) : a >>> 6 = a / 64 := by
  rw [Nat.shiftRight_eq_div_pow]

/-- `atob` inverts `btoa` on byte strings. -/
theorem atob_btoa : ∀ (s : List Nat), (∀ b ∈ s, b < 256) →
    ∃ t, btoa s = some t ∧ atob t = some s
  | [], _ => ⟨[], rfl, rfl⟩
  | [b0], h => by
    have h0 : b0 < 256 := h b0 (by simp)
    refine ⟨[b64Char (b0 >>> 2), b64Char ((b0 % 4) <<< 4), 61, 61], ?_, ?_⟩
    · simp only [btoa]
      rw [if_pos h0]
    · simp only [atob]
      rw [b64Val_b64Char _ (by rw [shiftr2]; omega),
        b64Val_b64Char _ (by rw [shiftl4]; omega)]
      simp only [shiftr2, shiftl4, shiftl2, shiftr4]
      rw [lor_mul4 _ _ (by omega)]
      have hv : b0 / 4 * 4 + b0 % 4 * 16 / 16 = b0 := by omega
      rw [hv]
  | [b0, b1], h => by
    have h0 : b0 < 256 := h b0 (by simp)
    have h1 : b1 < 256 := h b1 (by simp)
    refine ⟨[b64Char (b0 >>> 2), b64Char (((b0 % 4) <<< 4) ||| (b1 >>> 4)),
      b64Char ((b1 % 16) <<< 2), 61], ?_, ?_⟩
    · simp only [btoa]
      rw [if_pos ⟨h0, h1⟩]
    · rw [atob.eq_def]
      split
      · rename_i heq
        simp at heq
      · rename_i c0 c1 heq
        simp only [List.cons.injEq] at heq
        exact absurd heq.2.2.1 (b64Char_ne_61 _ (by rw [shiftl2]; omega))
      · rename_i c0 c1 c2 heq
        simp only [List.cons.injEq] at heq
        obtain ⟨e0, e1, e2, e3⟩ := heq
        rw [← e0, ← e1, ← e2,
          b64Val_b64Char _ (by rw [shiftr2]; omega),
          b64Val_b64Char _ (by rw [shiftl4, shiftr4, lor_mul16 _ _ (by omega)]; omega),
          b64Val_b64Char _ (by rw [shiftl2]; omega)]
        simp only [shiftl2, shiftl4, shiftr2, shiftr4]
        rw [lor_mul16 _ _ (by omega), lor_mul4 _ _ (by omega), lor_mul16 _ _ (by omega)]
        have hv0 : b0 / 4 * 4 + (b0 % 4 * 16 + b1 / 16) / 16 = b0 := by omega
        have hv1 : (b0 % 4 * 16 + b1 / 16) % 16 * 16 + b1 % 16 * 4 / 4 = b1 := by omega
        rw [hv0, hv1]
      · rename_i v0 v1 v2 v3 vrest hx2 hx3 heq
        simp only [List.cons.injEq] at heq
        obtain ⟨e0, e1, e2, e3, e4⟩ := heq
        exact (hx3 e3.symm e4.symm).elim
      · rename_i hno
        exact (hno (b64Char (b0 >>> 2)) (b64Char (((b0 % 4) <<< 4) ||| (b1 >>> 4)))
          (b64Char ((b1 % 16) <<< 2)) 61 [] rfl).elim
  | b0 :: b1 :: b2 :: rest, h => by
    have h0 : b0 < 256 := h b0 (by simp)
    have h1 : b1 < 256 := h b1 (by simp)
    have h2 : b2 < 256 := h b2 (by simp)
    obtain ⟨t, hbt, hat⟩ := atob_btoa rest (fun b hb => h b (by simp [hb]))
    have hv1lt : ((b0 % 4) <<< 4) ||| (b1 >>> 4) < 64 := by
      rw [shiftl4, shiftr4, lor_mul16 _ _ (by omega)]
      omega
    have hv2lt : ((b1 % 16) <<< 2) ||| (b2 >>> 6) < 64 := by
      rw [shiftl2, shiftr6, lor_mul4 _ _ (by omega)]
      omega
    refine ⟨b64Char (b0 >>> 2) :: b64Char (((b0 % 4) <<< 4) ||| (b1 >>> 4)) ::
      b64Char (((b1 % 16) <<< 2) ||| (b2 >>> 6)) :: b64Char (b2 % 64) :: t, ?_, ?_⟩
    · simp only [btoa]
      rw [if_pos ⟨h0, h1, h2⟩, hbt]
      rfl
    · rw [atob.eq_def]
      split
      · rename_i heq
        simp at heq
      · rename_i c0 c1 heq
        simp only [List.cons.injEq] at heq
        exact absurd heq.2.2.1 (b64Char_ne_61 _ hv2lt)
      · rename_i c0 c1 c2 heq
        simp only [List.cons.injEq] at heq
        exact absurd heq.2.2.2.1 (b64Char_ne_61 _ (by omega))
      · rename_i c0 c1 c2 c3 rest2 heq
        simp only [List.cons.injEq] at heq
        obtain ⟨e0, e1, e2, e3, er⟩ := heq
        rw [← e0, ← e1, ← e2, ← e3, ← er,
          b64Val_b64Char _ (by rw [shiftr2]; omega),
          b64Val_b64Char _ hv1lt,
          b64Val_b64Char _ hv2lt,
          b64Val_b64Char _ (by omega),
          hat]
        simp only [shiftl2, shiftl4, shiftl6, shiftr2, shiftr4, shiftr6]
        rw [lor_mul16 _ _ (by omega), lor_mul4 _ _ (by omega),
          lor_mul4 _ _ (by omega), lor_mul16 _ _ (by omega),
          lor_mul64 _ _ (by omega)]
        have hv0 : b0 / 4 * 4 + (b0 % 4 * 16 + b1 / 16) / 16 = b0 := by omega
        have hv1 : (b0 % 4 * 16 + b1 / 16) % 16 * 16
            + (b1 % 16 * 4 + b2 / 64) / 4 = b1 := by omega
        have hv2 : (b1 % 16 * 4 + b2 / 64) % 4 * 64 + b2 % 64 = b2 := by omega
        rw [hv0, hv1, hv2]
      · rename_i hno
        exact absurd rfl (hno (b64Char (b0 >>> 2)) (b64Char (((b0 % 4) <<< 4) ||| (b1 >>> 4)))
          (b64Char (((b1 % 16) <<< 2) ||| (b2 >>> 6))) (b64Char (b2 % 64)) t)

/-! ## C9 — percent-encoding layer -/

/-- `hexVal` inverts the uppercase escape digits. -/
theorem hexVal_hexUpChar : ∀ d : Nat, d < 16 → hexVal (hexUpChar d) = some d := by decide

/-- Escape digit characters are bytes. -/
theorem hexUpChar_lt (d : Nat) (hd : d < 16) : hexUpChar d < 256 := by
  unfold hexUpChar
  split_ifs <;> omega

/-- `readPct` reads back one emitted `%XX` escape. -/
theorem readPct_hex (b : Nat) (hb : b < 256) (rest : JsStr) :
    readPct (37 :: hexUpChar (b / 16) :: hexUpChar (b % 16) :: rest) = some (b, rest) := by
  simp only [readPct, hexVal_hexUpChar (b / 16) (by omega),
    hexVal_hexUpChar (b % 16) (by omega)]
  have hv : 16 * (b / 16) + b % 16 = b := by omega
  rw [hv]

/-- Characters at and above `0x7F` are always percent-escaped. -/
theorem uriUnreserved_big (c : Nat) (h : 127 ≤ c) : uriUnreserved c = false := by
  unfold uriUnreserved
  simp only [Bool.or_eq_false_iff, Bool.and_eq_false_iff, decide_eq_false_iff_not, not_le]
  omega

/-- The escape marker is never an unreserved character. -/
theorem uriUnreserved_ne_37 (c : Nat) (h : uriUnreserved c = true) : c ≠ 37 := by
  intro hc
  subst hc
  exact absurd h (by decide)

/-- An unreserved character is ASCII. -/
theorem uriUnreserved_ascii (c : Nat) (h : uriUnreserved c = true) : c < 127 := by
  by_contra h'
  rw [uriUnreserved_big c (by omega)] at h
  exact absurd h (by simp)

/-- A BMP code point is a single UTF-16 unit. -/
theorem utf16OfPoint_small (p : Nat) (h : p < 0x10000) : utf16OfPoint p = [p] := by
  unfold utf16OfPoint
  rw [if_pos h]

/-- A supplementary code point splits into the surrogate pair it came
from. -/
theorem utf16OfPoint_pair (c c2 : Nat) (hc : 0xD800 ≤ c ∧ c < 0xDC00)
    (hc2 : 0xDC00 ≤ c2 ∧ c2 < 0xE000) :
    utf16OfPoint (0x10000 + (c - 0xD800) * 1024 + (c2 - 0xDC00)) = [c, c2] := by
  unfold utf16OfPoint
  rw [if_neg (by omega)]
  simp only [List.cons.injEq, and_true]
  constructor
  · omega
  · omega

/-- Decoding step: a literal (non-escape) character. -/
theorem decURI_lit (f c : Nat) (hc : c ≠ 37) (e' s' : JsStr)
    (h : decURIAux f e' = some s') :
    decURIAux (f + 1) (c :: e') = some (c :: s') := by
  simp only [decURIAux]
  rw [if_neg hc, h]
  rfl

/-- Decoding step: a one-byte escape. -/
theorem decURI_b1 (f b : Nat) (hb : b < 0x80) (e' s' : JsStr)
    (h : decURIAux f e' = some s') :
    decURIAux (f + 1) (37 :: hexUpChar (b / 16) :: hexUpChar (b % 16) :: e')
      = some (b :: s') := by
  simp only [decURIAux]
  rw [if_true, readPct_hex b (by omega)]
  dsimp only
  rw [if_pos hb, h]
  rfl

/-- Decoding step: a two-byte escape sequence. -/
theorem decURI_b2 (f c : Nat) (h1 : 0x80 ≤ c) (h2 : c < 0x800) (e' s' : JsStr)
    (h : decURIAux f e' = some s') :
    decURIAux (f + 1)
      (37 :: hexUpChar ((0xC0 + c / 64) / 16) :: hexUpChar ((0xC0 + c / 64) % 16) ::
       37 :: hexUpChar ((0x80 + c % 64) / 16) :: hexUpChar ((0x80 + c % 64) % 16) :: e')
      = some (utf16OfPoint c ++ s') := by
  simp only [decURIAux]
  rw [if_true, readPct_hex (0xC0 + c / 64) (by omega)]
  dsimp only
  rw [if_neg (by omega), if_pos (by omega : 0xC0 ≤ 0xC0 + c / 64 ∧ 0xC0 + c / 64 < 0xE0),
    readPct_hex (0x80 + c % 64) (by omega)]
  dsimp only
  rw [if_pos (by omega : 0x80 ≤ 0x80 + c % 64 ∧ 0x80 + c % 64 < 0xC0)]
  have hp : (0xC0 + c / 64 - 0xC0) * 64 + (0x80 + c % 64 - 0x80) = c := by omega
  rw [hp, if_neg (by omega), h]
  rfl

/-- Decoding step: a three-byte escape sequence. -/
theorem decURI_b3 (f c : Nat) (h1 : 0x800 ≤ c) (h2 : c < 0x10000)
    (hns : ¬(0xD800 ≤ c ∧ c ≤ 0xDFFF)) (e' s' : JsStr)
    (h : decURIAux f e' = some s') :
    decURIAux (f + 1)
      (37 :: hexUpChar ((0xE0 + c / 4096) / 16) :: hexUpChar ((0xE0 + c / 4096) % 16) ::
       37 :: hexUpChar ((0x80 + c / 64 % 64) / 16) :: hexUpChar ((0x80 + c / 64 % 64) % 16) ::
       37 :: hexUpChar ((0x80 + c % 64) / 16) :: hexUpChar ((0x80 + c % 64) % 16) :: e')
      = some (utf16OfPoint c ++ s') := by
  simp only [decURIAux]
  rw [if_true, readPct_hex (0xE0 + c / 4096) (by omega)]
  dsimp only
  rw [if_neg (by omega), if_neg (by omega),
    if_pos (by omega : 0xE0 ≤ 0xE0 + c / 4096 ∧ 0xE0 + c / 4096 < 0xF0),
    readPct_hex (0x80 + c / 64 % 64) (by omega)]
  dsimp only
  rw [readPct_hex (0x80 + c % 64) (by omega)]
  dsimp only
  rw [if_pos (by omega : 0x80 ≤ 0x80 + c / 64 % 64 ∧ 0x80 + c / 64 % 64 < 0xC0 ∧
      0x80 ≤ 0x80 + c % 64 ∧ 0x80 + c % 64 < 0xC0)]
  have hp : (0xE0 + c / 4096 - 0xE0) * 4096 + (0x80 + c / 64 % 64 - 0x80) * 64
      + (0x80 + c % 64 - 0x80) = c := by omega
  rw [hp, if_neg (by omega), h]
  rfl

/-- Decoding step: a four-byte escape sequence. -/
theorem decURI_b4 (f p : Nat) (h1 : 0x10000 ≤ p) (h2 : p ≤ 0x10FFFF) (e' s' : JsStr)
    (h : decURIAux f e' = some s') :
    decURIAux (f + 1)
      (37 :: hexUpChar ((0xF0 + p / 262144) / 16) :: hexUpChar ((0xF0 + p / 262144) % 16) ::
       37 :: hexUpChar ((0x80 + p / 4096 % 64) / 16) :: hexUpChar ((0x80 + p / 4096 % 64) % 16) ::
       37 :: hexUpChar ((0x80 + p / 64 % 64) / 16) :: hexUpChar ((0x80 + p / 64 % 64) % 16) ::
       37 :: hexUpChar ((0x80 + p % 64) / 16) :: hexUpChar ((0x80 + p % 64) % 16) :: e')
      = some (utf16OfPoint p ++ s') := by
  simp only [decURIAux]
  rw [if_true, readPct_hex (0xF0 + p / 262144) (by omega)]
  dsimp only
  rw [if_neg (by omega), if_neg (by omega), if_neg (by omega),
    if_pos (by omega : 0xF0 ≤ 0xF0 + p / 262144 ∧ 0xF0 + p / 262144 < 0xF8),
    readPct_hex (0x80 + p / 4096 % 64) (by omega)]
  dsimp only
  rw [readPct_hex (0x80 + p / 64 % 64) (by omega)]
  dsimp only
  rw [readPct_hex (0x80 + p % 64) (by omega)]
  dsimp only
  rw [if_pos (by omega : 0x80 ≤ 0x80 + p / 4096 % 64 ∧ 0x80 + p / 4096 % 64 < 0xC0 ∧
      0x80 ≤ 0x80 + p / 64 % 64 ∧ 0x80 + p / 64 % 64 < 0xC0 ∧
      0x80 ≤ 0x80 + p % 64 ∧ 0x80 + p % 64 < 0xC0)]
  have hp : (0xF0 + p / 262144 - 0xF0) * 262144 + (0x80 + p / 4096 % 64 - 0x80) * 4096
      + (0x80 + p / 64 % 64 - 0x80) * 64 + (0x80 + p % 64 - 0x80) = p := by omega
  rw [hp, if_neg (by omega), h]
  rfl

/-- Percent-encoding round trip: on a well-formed UTF-16 string,
`encodeURIComponent` succeeds, emits only bytes, and `decodeURIComponent`'s
worker restores the input at any sufficient fuel. -/
theorem encode_decode : ∀ (n : Nat) (s : JsStr), s.length ≤ n → wfU s = true →
    ∃ e, encodeURIComp s = some e ∧ (∀ b ∈ e, b < 256) ∧
      ∀ fuel, e.length ≤ fuel → decURIAux fuel e = some s := by
  intro n
  induction n with
  | zero =>
    intro s hl hw
    have hnil : s = [] := List.length_eq_zero.mp (by omega)
    subst hnil
    exact ⟨[], rfl, by simp, fun fuel _ => by cases fuel <;> rfl⟩
  | succ m ih =>
    intro s hl hw
    cases s with
    | nil => exact ⟨[], rfl, by simp, fun fuel _ => by cases fuel <;> rfl⟩
    | cons c rest =>
      rw [wfU.eq_def] at hw
      dsimp only at hw
      by_cases hhi : 0xD800 ≤ c ∧ c < 0xDC00
      · rw [if_pos hhi] at hw
        cases rest with
        | nil => simp at hw
        | cons c2 rest2 =>
          simp only [Bool.and_eq_true, decide_eq_true_eq] at hw
          obtain ⟨hc2, hwr⟩ := hw
          obtain ⟨e', he', hb', hd'⟩ :=
            ih rest2 (by simp only [List.length_cons] at hl; omega) hwr
          obtain ⟨p, hpeq⟩ : ∃ p, p = 0x10000 + (c - 0xD800) * 1024 + (c2 - 0xDC00) :=
            ⟨_, rfl⟩
          have hP1 : 0x10000 ≤ p := by omega
          have hP2 : p ≤ 0x10FFFF := by omega
          have hch : (utf8Enc p).flatMap pctByte
              = [37, hexUpChar ((0xF0 + p / 262144) / 16), hexUpChar ((0xF0 + p / 262144) % 16),
                 37, hexUpChar ((0x80 + p / 4096 % 64) / 16), hexUpChar ((0x80 + p / 4096 % 64) % 16),
                 37, hexUpChar ((0x80 + p / 64 % 64) / 16), hexUpChar ((0x80 + p / 64 % 64) % 16),
                 37, hexUpChar ((0x80 + p % 64) / 16), hexUpChar ((0x80 + p % 64) % 16)] := by
            unfold utf8Enc
            rw [if_neg (by omega), if_neg (by omega), if_neg (by omega)]
            rfl
          have henc : encodeURIComp (c :: c2 :: rest2)
              = some ((utf8Enc p).flatMap pctByte ++ e') := by
            simp only [encodeURIComp]
            rw [if_neg (by rw [uriUnreserved_big c (by omega)]; simp),
              if_pos (by omega : 0xD800 ≤ c ∧ c ≤ 0xDBFF)]
            rw [if_pos (by omega : 0xDC00 ≤ c2 ∧ c2 ≤ 0xDFFF), he', hpeq]
            rfl
          refine ⟨(utf8Enc p).flatMap pctByte ++ e', henc, ?_, ?_⟩
          · intro b hb
            rw [hch] at hb
            simp only [List.mem_append, List.mem_cons, List.not_mem_nil, or_false] at hb
            rcases hb with (rfl | rfl | rfl | rfl | rfl | rfl | rfl | rfl | rfl | rfl | rfl | rfl) | hb
            all_goals first
              | omega
              | exact hexUpChar_lt _ (by omega)
              | exact hb' _ hb
          · intro fuel hf
            have hlen : ((utf8Enc p).flatMap pctByte ++ e').length = 12 + e'.length := by
              rw [hch]
              simp only [List.length_append, List.length_cons, List.length_nil]
              try omega
            rw [hlen] at hf
            obtain ⟨f, rfl⟩ : ∃ f, fuel = f + 1 := ⟨fuel - 1, by omega⟩
            rw [hch]
            simp only [List.cons_append, List.nil_append]
            rw [decURI_b4 f p hP1 hP2 e' rest2 (hd' f (by omega)), hpeq,
              utf16OfPoint_pair c c2 hhi hc2]
            rfl
      · rw [if_neg hhi] at hw
        simp only [Bool.and_eq_true, decide_eq_true_eq] at hw
        obtain ⟨⟨hlt, hnlo⟩, hwr⟩ := hw
        obtain ⟨e', he', hb', hd'⟩ :=
          ih rest (by simp only [List.length_cons] at hl; omega) hwr
        by_cases hu : uriUnreserved c = true
        · refine ⟨c :: e', ?_, ?_, ?_⟩
          · rw [encodeURIComp.eq_def]
            dsimp only
            rw [if_pos hu, he']
            rfl
          · intro b hb
            rcases List.mem_cons.mp hb with rfl | hb
            · have := uriUnreserved_ascii b hu
              omega
            · exact hb' b hb
          · intro fuel hf
            simp only [List.length_cons] at hf
            obtain ⟨f, rfl⟩ : ∃ f, fuel = f + 1 := ⟨fuel - 1, by omega⟩
            exact decURI_lit f c (uriUnreserved_ne_37 c hu) e' rest (hd' f (by omega))
        · have henc : encodeURIComp (c :: rest) = some ((utf8Enc c).flatMap pctByte ++ e') := by
            rw [encodeURIComp.eq_def]
            dsimp only
            rw [if_neg hu, if_neg (by omega : ¬(0xD800 ≤ c ∧ c ≤ 0xDBFF)),
              if_neg (by omega : ¬(0xDC00 ≤ c ∧ c ≤ 0xDFFF)), he']
            rfl
          by_cases hc80 : c < 0x80
          · have hch : (utf8Enc c).flatMap pctByte
                = [37, hexUpChar (c / 16), hexUpChar (c % 16)] := by
              unfold utf8Enc
              rw [if_pos hc80]
              rfl
            refine ⟨(utf8Enc c).flatMap pctByte ++ e', henc, ?_, ?_⟩
            · intro b hb
              rw [hch] at hb
              simp only [List.mem_append, List.mem_cons, List.not_mem_nil, or_false] at hb
              rcases hb with (rfl | rfl | rfl) | hb
              all_goals first
                | omega
                | exact hexUpChar_lt _ (by omega)
                | exact hb' _ hb
            · intro fuel hf
              have hlen : ((utf8Enc c).flatMap pctByte ++ e').length = 3 + e'.length := by
                rw [hch]
                simp only [List.length_append, List.length_cons, List.length_nil]
                try omega
              rw [hlen] at hf
              obtain ⟨f, rfl⟩ : ∃ f, fuel = f + 1 := ⟨fuel - 1, by omega⟩
              rw [hch]
              simp only [List.cons_append, List.nil_append]
              exact decURI_b1 f c hc80 e' rest (hd' f (by omega))
          · by_cases hc800 : c < 0x800
            · have hch : (utf8Enc c).flatMap pctByte
                  = [37, hexUpChar ((0xC0 + c / 64) / 16), hexUpChar ((0xC0 + c / 64) % 16),
                     37, hexUpChar ((0x80 + c % 64) / 16), hexUpChar ((0x80 + c % 64) % 16)] := by
                unfold utf8Enc
                rw [if_neg hc80, if_pos hc800]
                rfl
              refine ⟨(utf8Enc c).flatMap pctByte ++ e', henc, ?_, ?_⟩
              · intro b hb
                rw [hch] at hb
                simp only [List.mem_append, List.mem_cons, List.not_mem_nil, or_false] at hb
                rcases hb with (rfl | rfl | rfl | rfl | rfl | rfl) | hb
                all_goals first
                  | omega
                  | exact hexUpChar_lt _ (by omega)
                  | exact hb' _ hb
              · intro fuel hf
                have hlen : ((utf8Enc c).flatMap pctByte ++ e').length = 6 + e'.length := by
                  rw [hch]
                  simp only [List.length_append, List.length_cons, List.length_nil]
                  try omega
                rw [hlen] at hf
                obtain ⟨f, rfl⟩ : ∃ f, fuel = f + 1 := ⟨fuel - 1, by omega⟩
                rw [hch]
                simp only [List.cons_append, List.nil_append]
                rw [decURI_b2 f c (by omega) hc800 e' rest (hd' f (by omega)),
                  utf16OfPoint_small c (by omega)]
                rfl
            · have hch : (utf8Enc c).flatMap pctByte
                  = [37, hexUpChar ((0xE0 + c / 4096) / 16), hexUpChar ((0xE0 + c / 4096) % 16),
                     37, hexUpChar ((0x80 + c / 64 % 64) / 16), hexUpChar ((0x80 + c / 64 % 64) % 16),
                     37, hexUpChar ((0x80 + c % 64) / 16), hexUpChar ((0x80 + c % 64) % 16)] := by
                unfold utf8Enc
                rw [if_neg hc80, if_neg hc800, if_pos hlt]
                rfl
              refine ⟨(utf8Enc c).flatMap pctByte ++ e', henc, ?_, ?_⟩
              · intro b hb
                rw [hch] at hb
                simp only [List.mem_append, List.mem_cons, List.not_mem_nil, or_false] at hb
                rcases hb with (rfl | rfl | rfl | rfl | rfl | rfl | rfl | rfl | rfl) | hb
                all_goals first
                  | omega
                  | exact hexUpChar_lt _ (by omega)
                  | exact hb' _ hb
              · intro fuel hf
                have hlen : ((utf8Enc c).flatMap pctByte ++ e').length = 9 + e'.length := by
                  rw [hch]
                  simp only [List.length_append, List.length_cons, List.length_nil]
                  try omega
                rw [hlen] at hf
                obtain ⟨f, rfl⟩ : ∃ f, fuel = f + 1 := ⟨fuel - 1, by omega⟩
                rw [hch]
                simp only [List.cons_append, List.nil_append]
                rw [decURI_b3 f c (by omega) hlt (by omega) e' rest (hd' f (by omega)),
                  utf16OfPoint_small c hlt]
                rfl

/-! ## C9 — JSON string layer -/

/-- `hexVal` inverts the lowercase escape digits. -/
theorem hexVal_hexLoChar : ∀ d : Nat, d < 16 → hexVal (hexLoChar d) = some d := by decide

/-- Splitting a UTF-16 well-formedness check at a cons. -/
theorem wfStr_cons (c : Nat) (t : JsStr) :
    wfStr (c :: t) = true ↔ c < 65536 ∧ wfStr t = true := by
  simp [wfStr]

/-- String scan step: the closing quote. -/
theorem parseJString_close (f : Nat) (rest : JsStr) :
    parseJString (f + 1) (34 :: rest) = some ([], rest) := rfl

/-- String scan step: a literal character. -/
theorem parseJString_lit (f c : Nat) (h32 : 32 ≤ c) (h34 : c ≠ 34) (h92 : c ≠ 92)
    (rest : JsStr) :
    parseJString (f + 1) (c :: rest)
      = (parseJString f rest).map (fun q => (c :: q.1, q.2)) := by
  rw [parseJString.eq_def]
  dsimp only
  rw [if_neg h34, if_neg h92, if_neg (by omega : ¬c < 32)]

/-- String scan step: an escape sequence. -/
theorem parseJString_esc_step (f : Nat) (rest : JsStr) (u : Nat) (r : JsStr)
    (he : escDecode rest = some (u, r)) (q : JsStr × JsStr)
    (ih : parseJString f r = some q) :
    parseJString (f + 1) (92 :: rest) = some (u :: q.1, q.2) := by
  rw [parseJString.eq_def]
  dsimp only
  rw [if_neg (by omega : ¬(92 : Nat) = 34), if_pos (rfl : (92 : Nat) = 92), he]
  dsimp only
  rw [ih]
  rfl

/-- One quoted unit (escaped or literal) parses back to the unit. -/
theorem parseJString_escUnit (f c : Nat) (hc : c < 65536) (tail : JsStr)
    (q : JsStr × JsStr) (ih : parseJString f tail = some q) :
    parseJString (f + 1) (escUnit c ++ tail) = some (c :: q.1, q.2) := by
  unfold escUnit
  split_ifs with h34 h92 h8 h9 h10 h12 h13 hctl hsur
  · subst h34
    exact parseJString_esc_step f (34 :: tail) 34 tail rfl q ih
  · subst h92
    exact parseJString_esc_step f (92 :: tail) 92 tail rfl q ih
  · subst h8
    exact parseJString_esc_step f (98 :: tail) 8 tail rfl q ih
  · subst h9
    exact parseJString_esc_step f (116 :: tail) 9 tail rfl q ih
  · subst h10
    exact parseJString_esc_step f (110 :: tail) 10 tail rfl q ih
  · subst h12
    exact parseJString_esc_step f (102 :: tail) 12 tail rfl q ih
  · subst h13
    exact parseJString_esc_step f (114 :: tail) 13 tail rfl q ih
  · have he : escDecode (117 :: 48 :: 48 :: hexLoChar (c / 16) :: hexLoChar (c % 16) :: tail)
        = some (c, tail) := by
      simp only [escDecode, show hexVal 48 = some 0 from rfl,
        hexVal_hexLoChar (c / 16) (by omega), hexVal_hexLoChar (c % 16) (by omega)]
      have hv : 0 * 4096 + 0 * 256 + c / 16 * 16 + c % 16 = c := by omega
      rw [hv]
      norm_num
    simp only [List.cons_append, List.nil_append]
    exact parseJString_esc_step f _ c tail he q ih
  · have he : escDecode (117 :: hexLoChar (c / 4096) :: hexLoChar (c / 256 % 16) ::
        hexLoChar (c / 16 % 16) :: hexLoChar (c % 16) :: tail) = some (c, tail) := by
      simp only [escDecode, hexVal_hexLoChar (c / 4096) (by omega),
        hexVal_hexLoChar (c / 256 % 16) (by omega),
        hexVal_hexLoChar (c / 16 % 16) (by omega), hexVal_hexLoChar (c % 16) (by omega)]
      have hv : c / 4096 * 4096 + c / 256 % 16 * 256 + c / 16 % 16 * 16 + c % 16 = c := by
        omega
      rw [hv]
      norm_num
    simp only [List.cons_append, List.nil_append]
    exact parseJString_esc_step f _ c tail he q ih
  · simp only [List.cons_append, List.nil_append]
    rw [parseJString_lit f c (by omega) h34 h92, ih]
    rfl

/-- The quoted body followed by the closing quote parses back to the
string, at any fuel above the unit count. -/
theorem parseJString_quoteBody : ∀ (s : JsStr), wfStr s = true →
    ∀ (rest : JsStr) (f : Nat), s.length < f →
    parseJString f (quoteBody s ++ 34 :: rest) = some (s, rest)
  | [], _, rest, f, hf => by
    obtain ⟨k, rfl⟩ : ∃ k, f = k + 1 := ⟨f - 1, by omega⟩
    simp only [quoteBody, List.nil_append]
    exact parseJString_close k rest
  | [c], hw, rest, f, hf => by
    have hc : c < 65536 := ((wfStr_cons c []).mp hw).1
    obtain ⟨k, rfl⟩ : ∃ k, f = k + 2 :=
      ⟨f - 2, by simp only [List.length_cons, List.length_nil] at hf; omega⟩
    simp only [quoteBody]
    exact parseJString_escUnit (k + 1) c hc (34 :: rest) ([], rest)
      (parseJString_close k rest)
  | c :: c2 :: rest2, hw, rest, f, hf => by
    have hc : c < 65536 := ((wfStr_cons c (c2 :: rest2)).mp hw).1
    have hw2 : wfStr (c2 :: rest2) = true := ((wfStr_cons c (c2 :: rest2)).mp hw).2
    have hc2 : c2 < 65536 := ((wfStr_cons c2 rest2).mp hw2).1
    have hwr : wfStr rest2 = true := ((wfStr_cons c2 rest2).mp hw2).2
    have hlen : rest2.length + 2 < f := by
      simp only [List.length_cons] at hf
      omega
    simp only [quoteBody]
    by_cases hp : 0xD800 ≤ c ∧ c ≤ 0xDBFF ∧ 0xDC00 ≤ c2 ∧ c2 ≤ 0xDFFF
    · obtain ⟨k, rfl⟩ : ∃ k, f = k + 2 := ⟨f - 2, by omega⟩
      rw [if_pos hp]
      simp only [List.cons_append]
      rw [parseJString_lit (k + 1) c (by omega) (by omega) (by omega),
        parseJString_lit k c2 (by omega) (by omega) (by omega),
        parseJString_quoteBody rest2 hwr rest k (by omega)]
      rfl
    · obtain ⟨k, rfl⟩ : ∃ k, f = k + 1 := ⟨f - 1, by omega⟩
      rw [if_neg hp, List.append_assoc]
      exact parseJString_escUnit k c hc _ (c2 :: rest2, rest)
        (parseJString_quoteBody (c2 :: rest2) hw2 rest k (by simp; omega))

/-! ## C9 — JSON number layer -/

/-- `digitRun` stops at a non-digit (or the end). -/
theorem digitRun_stop (rest : JsStr) (h : ∀ r ∈ rest.take 1, decVal r = none) :
    digitRun decVal rest = [] := by
  cases rest with
  | nil => rfl
  | cons r t =>
    simp only [digitRun, h r (by simp)]

/-- `digitRun` over rendered digits followed by a non-digit. -/
theorem digitRun_dec_append : ∀ (ds : List Nat), (∀ d ∈ ds, d < 10) → ∀ (rest : JsStr),
    (∀ r ∈ rest.take 1, decVal r = none) →
    digitRun decVal (ds.map (fun d => 48 + d) ++ rest) = ds
  | [], _, rest, hrest => by
    simp only [List.map_nil, List.nil_append]
    exact digitRun_stop rest hrest
  | d :: ds, h, rest, hrest => by
    simp only [List.map_cons, List.cons_append, digitRun, List.append_eq]
    have hv : decVal (48 + d) = some d := by
      unfold decVal
      rw [if_pos (by have := h d (by simp); omega)]
      congr 1
      omega
    rw [hv]
    dsimp only
    rw [digitRun_dec_append ds (fun x hx => h x (by simp [hx])) rest hrest]

/-- `digitsLE` is nonempty on a nonzero value with fuel. -/
theorem digitsLE_ne_nil (b : Nat) (q f : Nat) (hq : q ≠ 0) (hf : 1 ≤ f) :
    digitsLE b f q ≠ [] := by
  cases f with
  | zero => omega
  | succ f2 =>
    simp only [digitsLE, if_neg hq]
    simp

/-- The most significant rendered digit is nonzero. -/
theorem digitsLE_rev_head (b : Nat) (hb : 2 ≤ b) : ∀ fuel n, n ≠ 0 → n ≤ fuel →
    ((digitsLE b fuel n).reverse).headD 1 ≠ 0 := by
  intro fuel
  induction fuel with
  | zero => intro n hn hf; omega
  | succ f ih =>
    intro n hn hf
    simp only [digitsLE, if_neg hn, List.reverse_cons]
    by_cases hq : n / b = 0
    · have hnb : n < b := (Nat.div_eq_zero_iff (by omega)).mp hq
      rw [hq]
      show ((digitsLE b f 0).reverse ++ [n % b]).headD 1 ≠ 0
      have h0 : digitsLE b f 0 = [] := by
        cases f with
        | zero => rfl
        | succ f2 => simp [digitsLE]
      rw [h0]
      show n % b ≠ 0
      rw [Nat.mod_eq_of_lt hnb]
      exact hn
    · have hfq : n / b ≤ f := by
        have : n / b < n := Nat.div_lt_self (by omega) (by omega)
        omega
      obtain ⟨a, t, hat⟩ : ∃ a t, digitsLE b f (n / b) = a :: t := by
        cases hd : digitsLE b f (n / b) with
        | nil => exact absurd hd (digitsLE_ne_nil b (n / b) f hq
            (le_trans (Nat.pos_of_ne_zero hq) hfq))
        | cons a t => exact ⟨a, t, rfl⟩
      have hih := ih (n / b) hq hfq
      rw [hat] at hih ⊢
      simp only [List.reverse_cons] at hih ⊢
      cases hrev : t.reverse with
      | nil =>
        rw [hrev] at hih
        simp only [List.nil_append] at hih ⊢
        simpa using hih
      | cons x u =>
        rw [hrev] at hih
        simp only [List.cons_append] at hih ⊢
        simpa using hih

/-- `parseJNumber` inverts `toDecStr` when no digit-like character
follows. -/
theorem parseJNumber_toDecStr (n : Nat) (rest : JsStr)
    (hrest : ∀ r ∈ rest.take 1, decVal r = none ∧ r ≠ 46 ∧ r ≠ 101 ∧ r ≠ 69) :
    parseJNumber (toDecStr n ++ rest) = some (n, rest) := by
  by_cases h0 : n = 0
  · subst h0
    have hds : digitRun decVal (toDecStr 0 ++ rest) = [0] := by
      rw [show toDecStr 0 = [0].map (fun d => 48 + d) from rfl]
      exact digitRun_dec_append [0] (by simp) rest (fun r hr => (hrest r hr).1)
    unfold parseJNumber
    dsimp only
    rw [hds]
    rw [if_neg (by simp), if_neg (by simp)]
    have hdrop : (toDecStr 0 ++ rest).drop ([0] : List Nat).length = rest := by
      rw [show ([0] : List Nat).length = (toDecStr 0).length from rfl]
      exact List.drop_left _ _
    rw [hdrop]
    have hval : digitsVal 10 [0] = 0 := by simp [digitsVal]
    cases rest with
    | nil => simp [hval]
    | cons r t =>
      obtain ⟨_, h46, h101, h69⟩ := hrest r (by simp)
      dsimp only
      rw [if_neg (by tauto)]
      simp [hval]
  · have hchars : ∀ d ∈ (digitsLE 10 n n).reverse, d < 10 := by
      intro d hd
      exact digitsLE_lt 10 (by norm_num) n n d (List.mem_reverse.mp hd)
    have hds : digitRun decVal (toDecStr n ++ rest) = (digitsLE 10 n n).reverse := by
      rw [show toDecStr n = ((digitsLE 10 n n).reverse).map (fun d => 48 + d) from by
        unfold toDecStr; rw [if_neg h0]]
      exact digitRun_dec_append _ hchars rest (fun r hr => (hrest r hr).1)
    have hne : (digitsLE 10 n n).reverse ≠ [] := by
      intro hnil
      have hv := digitsLE_val 10 (by norm_num) n n le_rfl
      rw [hnil] at hv
      simp [digitsVal] at hv
      exact h0 hv.symm
    unfold parseJNumber
    dsimp only
    rw [hds]
    rw [if_neg (by simpa using hne),
      if_neg (fun hand => digitsLE_rev_head 10 (by norm_num) n n h0 le_rfl hand.2)]
    have hdrop : (toDecStr n ++ rest).drop ((digitsLE 10 n n).reverse).length = rest := by
      rw [show ((digitsLE 10 n n).reverse).length = (toDecStr n).length from by
        unfold toDecStr
        rw [if_neg h0, List.length_map]]
      exact List.drop_left _ _
    rw [hdrop]
    have hval : digitsVal 10 ((digitsLE 10 n n).reverse) = n :=
      digitsLE_val 10 (by norm_num) n n le_rfl
    cases rest with
    | nil => simp [hval]
    | cons r t =>
      obtain ⟨_, h46, h101, h69⟩ := hrest r (by simp)
      dsimp only
      rw [if_neg (by tauto)]
      simp [hval]

/-! ## C9 — JSON value layer -/

/-- Whitespace skipping does nothing when the head is not JSON
whitespace. -/
theorem skipJsonWs_nows (c : Nat) (t : JsStr)
    (h : ¬(c = 32 ∨ c = 9 ∨ c = 10 ∨ c = 13)) :
    skipJsonWs (c :: t) = c :: t := by
  unfold skipJsonWs
  rw [List.dropWhile_cons, if_neg (by simp only [Bool.or_eq_true, decide_eq_true_eq]; tauto)]

/-- Every escaped unit is at least one character long. -/
theorem escUnit_len (c : Nat) : 1 ≤ (escUnit c).length := by
  unfold escUnit
  split_ifs <;> simp

/-- Quoting never shortens a string. -/
theorem quoteBody_length_ge : ∀ s : JsStr, s.length ≤ (quoteBody s).length
  | [] => by simp [quoteBody]
  | [c] => by
    simp only [quoteBody, List.length_cons, List.length_nil]
    have := escUnit_len c
    omega
  | c :: c2 :: rest => by
    simp only [quoteBody]
    split_ifs with hp
    · simp only [List.length_cons]
      have := quoteBody_length_ge rest
      omega
    · simp only [List.length_append, List.length_cons]
      have h1 := escUnit_len c
      have h2 := quoteBody_length_ge (c2 :: rest)
      simp only [List.length_cons] at h2
      omega

/-- The decimal rendering starts with a digit. -/
theorem toDecStr_head (n : Nat) : ∃ c t, toDecStr n = c :: t ∧ 48 ≤ c ∧ c ≤ 57 := by
  by_cases h0 : n = 0
  · subst h0
    exact ⟨48, [], rfl, by omega, by omega⟩
  · have hne : (digitsLE 10 n n).reverse ≠ [] := by
      intro hnil
      have hv := digitsLE_val 10 (by norm_num) n n le_rfl
      rw [hnil] at hv
      simp [digitsVal] at hv
      exact h0 hv.symm
    obtain ⟨d, t, hdt⟩ : ∃ d t, (digitsLE 10 n n).reverse = d :: t := by
      cases hc : (digitsLE 10 n n).reverse with
      | nil => exact absurd hc hne
      | cons d t => exact ⟨d, t, rfl⟩
    have hd : d < 10 := digitsLE_lt 10 (by norm_num) n n d
      (List.mem_reverse.mp (by rw [hdt]; simp))
    refine ⟨48 + d, t.map (fun x => 48 + x), ?_, by omega, by omega⟩
    unfold toDecStr
    rw [if_neg h0, hdt]
    rfl

/-- The head after a separator is not part of a number token. -/
theorem sepRest_ok (c : Nat) (hc : decVal c = none ∧ c ≠ 46 ∧ c ≠ 101 ∧ c ≠ 69)
    (X : JsStr) :
    ∀ r ∈ (c :: X).take 1, decVal r = none ∧ r ≠ 46 ∧ r ≠ 101 ∧ r ≠ 69 := by
  intro r hr
  simp only [List.take_succ_cons, List.take_zero, List.mem_singleton] at hr
  subst hr
  exact hc

mutual

/-- Parsing fuel is covered by the serialized length. -/
theorem jvSize_le : ∀ v : JValue, jvSize v ≤ (stringifyJV v).length
  | .str s => by simp [jvSize, stringifyJV, quoteJStr]
  | .num n => by
    obtain ⟨c, t, hct, _, _⟩ := toDecStr_head n
    simp only [jvSize, stringifyJV, hct, List.length_cons]
    omega
  | .jtrue => by simp [jvSize, stringifyJV]; decide
  | .jfalse => by simp [jvSize, stringifyJV]; decide
  | .jnull => by simp [jvSize, stringifyJV]; decide
  | .obj fs => by
    have h := jmSize_le fs
    simp only [jvSize, stringifyJV, List.length_cons, List.length_append] at h ⊢
    omega
  | .arr es => by
    have h := jeSize_le es
    simp only [jvSize, stringifyJV, List.length_cons, List.length_append] at h ⊢
    omega

/-- Member fuel is covered by the serialized length. -/
theorem jmSize_le : ∀ fs : List (JsStr × JValue),
    jmSize fs ≤ (stringifyJFields fs).length + 1
  | [] => by simp [jmSize]
  | [(k, v)] => by
    have h := jvSize_le v
    simp only [jmSize, jmSize, stringifyJFields, List.length_append, List.length_cons]
    omega
  | (k, v) :: (k2, v2) :: rest => by
    have h1 := jvSize_le v
    have h2 := jmSize_le ((k2, v2) :: rest)
    simp only [jmSize, stringifyJFields, List.length_append, List.length_cons] at h2 ⊢
    omega

/-- Element fuel is covered by the serialized length. -/
theorem jeSize_le : ∀ es : List JValue, jeSize es ≤ (stringifyJElems es).length + 1
  | [] => by simp [jeSize]
  | [v] => by
    have h := jvSize_le v
    simp only [jeSize, jeSize, stringifyJElems]
    omega
  | v :: v2 :: rest => by
    have h1 := jvSize_le v
    have h2 := jeSize_le (v2 :: rest)
    simp only [jeSize, stringifyJElems, List.length_append, List.length_cons] at h2 ⊢
    omega

end

/-- The modelled `JSON.parse` grammar inverts `JSON.stringify` on the
modelled value space: mutual statement for values, object members and
array elements, at any fuel covering the size measure. -/
theorem parseJ_stringify : ∀ fuel : Nat,
    (∀ v rest, wfJV v = true → jvSize v ≤ fuel →
      (∀ r ∈ rest.take 1, decVal r = none ∧ r ≠ 46 ∧ r ≠ 101 ∧ r ≠ 69) →
      parseJValue fuel (stringifyJV v ++ rest) = some (v, rest)) ∧
    (∀ fs rest, fs ≠ [] → wfJFields fs = true → jmSize fs ≤ fuel →
      parseJMembers fuel (stringifyJFields fs ++ 125 :: rest) = some (fs, rest)) ∧
    (∀ es rest, es ≠ [] → wfJElems es = true → jeSize es ≤ fuel →
      parseJElems fuel (stringifyJElems es ++ 93 :: rest) = some (es, rest)) := by
  intro fuel
  induction fuel with
  | zero =>
    refine ⟨?_, ?_, ?_⟩
    · intro v rest _ hsz _
      exact absurd hsz (by cases v <;> simp [jvSize])
    · intro fs rest hne _ hsz
      cases fs with
      | nil => exact absurd rfl hne
      | cons p t =>
        obtain ⟨k, v⟩ := p
        exact absurd hsz (by simp [jmSize])
    · intro es rest hne _ hsz
      cases es with
      | nil => exact absurd rfl hne
      | cons v t => exact absurd hsz (by simp [jeSize])
  | succ m ih =>
    obtain ⟨ihv, ihm, ihe⟩ := ih
    refine ⟨?_, ?_, ?_⟩
    · intro v rest hwf hsz hrest
      cases v with
      | str s =>
        have hwfs : wfStr s = true := by simpa [wfJV] using hwf
        have hshape : stringifyJV (JValue.str s) ++ rest
            = 34 :: (quoteBody s ++ 34 :: rest) := by
          simp [stringifyJV, quoteJStr, List.append_assoc]
        rw [hshape]
        simp only [parseJValue]
        rw [skipJsonWs_nows 34 _ (by omega)]
        dsimp only
        rw [if_pos (rfl : (34 : Nat) = 34),
          parseJString_quoteBody s hwfs rest _ (by
            simp only [List.length_append, List.length_cons]
            have := quoteBody_length_ge s
            omega)]
        rfl
      | num n =>
        obtain ⟨c, t, hct, hc1, hc2⟩ := toDecStr_head n
        have hshape : stringifyJV (JValue.num n) ++ rest = c :: (t ++ rest) := by
          simp only [stringifyJV, hct, List.cons_append]
        rw [hshape]
        simp only [parseJValue]
        rw [skipJsonWs_nows c _ (by omega)]
        dsimp only
        rw [if_neg (by omega : ¬c = 34), if_neg (by omega : ¬c = 123),
          if_neg (by omega : ¬c = 91), if_neg (by omega : ¬c = 116),
          if_neg (by omega : ¬c = 102), if_neg (by omega : ¬c = 110),
          show c :: (t ++ rest) = toDecStr n ++ rest from by rw [hct]; rfl,
          parseJNumber_toDecStr n rest hrest]
        rfl
      | jtrue =>
        have hshape : stringifyJV JValue.jtrue ++ rest
            = 116 :: 114 :: 117 :: 101 :: rest := by
          rw [show stringifyJV JValue.jtrue = [116, 114, 117, 101] from by decide]
          rfl
        rw [hshape]
        simp only [parseJValue]
        rw [skipJsonWs_nows 116 _ (by omega)]
        dsimp only
        rw [if_neg (by omega : ¬(116 : Nat) = 34), if_neg (by omega : ¬(116 : Nat) = 123),
          if_neg (by omega : ¬(116 : Nat) = 91), if_pos (rfl : (116 : Nat) = 116)]
        rfl
      | jfalse =>
        have hshape : stringifyJV JValue.jfalse ++ rest
            = 102 :: 97 :: 108 :: 115 :: 101 :: rest := by
          rw [show stringifyJV JValue.jfalse = [102, 97, 108, 115, 101] from by decide]
          rfl
        rw [hshape]
        simp only [parseJValue]
        rw [skipJsonWs_nows 102 _ (by omega)]
        dsimp only
        rw [if_neg (by omega : ¬(102 : Nat) = 34), if_neg (by omega : ¬(102 : Nat) = 123),
          if_neg (by omega : ¬(102 : Nat) = 91), if_neg (by omega : ¬(102 : Nat) = 116),
          if_pos (rfl : (102 : Nat) = 102)]
        rfl
      | jnull =>
        have hshape : stringifyJV JValue.jnull ++ rest
            = 110 :: 117 :: 108 :: 108 :: rest := by
          rw [show stringifyJV JValue.jnull = [110, 117, 108, 108] from by decide]
          rfl
        rw [hshape]
        simp only [parseJValue]
        rw [skipJsonWs_nows 110 _ (by omega)]
        dsimp only
        rw [if_neg (by omega : ¬(110 : Nat) = 34), if_neg (by omega : ¬(110 : Nat) = 123),
          if_neg (by omega : ¬(110 : Nat) = 91), if_neg (by omega : ¬(110 : Nat) = 116),
          if_neg (by omega : ¬(110 : Nat) = 102), if_pos (rfl : (110 : Nat) = 110)]
        rfl
      | obj fs =>
        have hwff : wfJFields fs = true := by simpa [wfJV] using hwf
        have hszf : jmSize fs ≤ m := by
          have : jvSize (JValue.obj fs) = 1 + jmSize fs := by simp [jvSize]
          omega
        cases fs with
        | nil =>
          have hshape : stringifyJV (JValue.obj []) ++ rest = 123 :: 125 :: rest := by
            simp [stringifyJV, stringifyJFields]
          rw [hshape]
          simp only [parseJValue]
          rw [skipJsonWs_nows 123 _ (by omega)]
          dsimp only
          rw [if_neg (by omega : ¬(123 : Nat) = 34), if_pos (rfl : (123 : Nat) = 123),
            skipJsonWs_nows 125 _ (by omega)]
          dsimp only
          rw [if_pos (rfl : (125 : Nat) = 125)]
        | cons p fs2 =>
          obtain ⟨k, v⟩ := p
          have hhead : ∃ T, stringifyJFields ((k, v) :: fs2) ++ 125 :: rest = 34 :: T := by
            cases fs2 with
            | nil =>
              exact ⟨(quoteBody k ++ 34 :: (58 :: stringifyJV v)) ++ 125 :: rest,
                by simp [stringifyJFields, quoteJStr, List.append_assoc]⟩
            | cons p2 t2 =>
              exact ⟨(quoteBody k ++ 34 :: (58 :: (stringifyJV v ++
                  44 :: stringifyJFields (p2 :: t2)))) ++ 125 :: rest,
                by simp [stringifyJFields, quoteJStr, List.append_assoc]⟩
          obtain ⟨T, hT⟩ := hhead
          have hshape : stringifyJV (JValue.obj ((k, v) :: fs2)) ++ rest
              = 123 :: (stringifyJFields ((k, v) :: fs2) ++ 125 :: rest) := by
            simp [stringifyJV, List.append_assoc]
          rw [hshape]
          simp only [parseJValue]
          rw [skipJsonWs_nows 123 _ (by omega)]
          dsimp only
          rw [if_neg (by omega : ¬(123 : Nat) = 34), if_pos (rfl : (123 : Nat) = 123), hT,
            skipJsonWs_nows 34 _ (by omega)]
          dsimp only
          rw [if_neg (by omega : ¬(34 : Nat) = 125), ← hT,
            ihm ((k, v) :: fs2) rest (by simp) hwff hszf]
          rfl
      | arr es =>
        have hwfe : wfJElems es = true := by simpa [wfJV] using hwf
        have hsze : jeSize es ≤ m := by
          have : jvSize (JValue.arr es) = 1 + jeSize es := by simp [jvSize]
          omega
        cases es with
        | nil =>
          have hshape : stringifyJV (JValue.arr []) ++ rest = 91 :: 93 :: rest := by
            simp [stringifyJV, stringifyJElems]
          rw [hshape]
          simp only [parseJValue]
          rw [skipJsonWs_nows 91 _ (by omega)]
          dsimp only
          rw [if_neg (by omega : ¬(91 : Nat) = 34), if_neg (by omega : ¬(91 : Nat) = 123),
            if_pos (rfl : (91 : Nat) = 91), skipJsonWs_nows 93 _ (by omega)]
          dsimp only
          rw [if_pos (rfl : (93 : Nat) = 93)]
        | cons v es2 =>
          have hhead : ∃ c T, stringifyJElems (v :: es2) ++ 93 :: rest = c :: T ∧
              ¬(c = 32 ∨ c = 9 ∨ c = 10 ∨ c = 13) ∧ c ≠ 93 := by
            obtain ⟨c, t, hct, hnws0, hne93a⟩ : ∃ c t, stringifyJV v = c :: t ∧
                ¬(c = 32 ∨ c = 9 ∨ c = 10 ∨ c = 13) ∧ c ≠ 93 := by
              cases v with
              | str s => exact ⟨34, quoteBody s ++ [34], by simp [stringifyJV, quoteJStr], by omega, by omega⟩
              | num n =>
                obtain ⟨c, t, hct, h1, h2⟩ := toDecStr_head n
                exact ⟨c, t, by simp [stringifyJV, hct], by omega, by omega⟩
              | jtrue => exact ⟨116, _, by rw [show stringifyJV JValue.jtrue
                  = 116 :: [114, 117, 101] from by decide], by omega, by omega⟩
              | jfalse => exact ⟨102, _, by rw [show stringifyJV JValue.jfalse
                  = 102 :: [97, 108, 115, 101] from by decide], by omega, by omega⟩
              | jnull => exact ⟨110, _, by rw [show stringifyJV JValue.jnull
                  = 110 :: [117, 108, 108] from by decide], by omega, by omega⟩
              | obj fs => exact ⟨123, stringifyJFields fs ++ [125], by simp [stringifyJV], by omega, by omega⟩
              | arr es3 => exact ⟨91, stringifyJElems es3 ++ [93], by simp [stringifyJV], by omega, by omega⟩
            cases es2 with
            | nil =>
              refine ⟨c, t ++ 93 :: rest, ?_, hnws0, hne93a⟩
              simp [stringifyJElems, hct]
            | cons v2 t2 =>
              refine ⟨c, t ++ 44 :: stringifyJElems (v2 :: t2) ++ 93 :: rest, ?_,
                hnws0, hne93a⟩
              simp [stringifyJElems, hct, List.append_assoc]
          obtain ⟨c, T, hcT, hnws, hne93⟩ := hhead
          have hshape : stringifyJV (JValue.arr (v :: es2)) ++ rest
              = 91 :: (stringifyJElems (v :: es2) ++ 93 :: rest) := by
            simp [stringifyJV, List.append_assoc]
          rw [hshape]
          simp only [parseJValue]
          rw [skipJsonWs_nows 91 _ (by omega)]
          dsimp only
          rw [if_neg (by omega : ¬(91 : Nat) = 34), if_neg (by omega : ¬(91 : Nat) = 123),
            if_pos (rfl : (91 : Nat) = 91), hcT, skipJsonWs_nows c _ hnws]
          dsimp only
          rw [if_neg hne93, ← hcT, ihe (v :: es2) rest (by simp) hwfe hsze]
          rfl
    · intro fs rest hne hwf hsz
      cases fs with
      | nil => exact absurd rfl hne
      | cons p fs2 =>
        obtain ⟨k, v⟩ := p
        have hw3 : wfStr k = true ∧ wfJV v = true ∧ wfJFields fs2 = true := by
          simpa [wfJFields, Bool.and_eq_true, and_assoc] using hwf
        obtain ⟨hwk, hwv, hwf2⟩ := hw3
        have hsz2 : 1 + jvSize v + jmSize fs2 ≤ m + 1 := by simpa [jmSize] using hsz
        cases fs2 with
        | nil =>
          have hshape : stringifyJFields [(k, v)] ++ 125 :: rest
              = 34 :: (quoteBody k ++ 34 :: (58 :: (stringifyJV v ++ 125 :: rest))) := by
            simp [stringifyJFields, quoteJStr, List.append_assoc]
          rw [hshape]
          simp only [parseJMembers]
          rw [skipJsonWs_nows 34 _ (by omega)]
          dsimp only
          rw [if_pos (rfl : (34 : Nat) = 34),
            parseJString_quoteBody k hwk _ _ (by
              simp only [List.length_append, List.length_cons]
              have := quoteBody_length_ge k
              omega)]
          dsimp only
          rw [skipJsonWs_nows 58 _ (by omega)]
          dsimp only
          rw [if_pos (rfl : (58 : Nat) = 58),
            ihv v (125 :: rest) hwv (by omega)
              (sepRest_ok 125 (by refine ⟨rfl, ?_, ?_, ?_⟩ <;> omega) rest)]
          dsimp only
          rw [skipJsonWs_nows 125 _ (by omega)]
          dsimp only
          rw [if_neg (by omega : ¬(125 : Nat) = 44), if_pos (rfl : (125 : Nat) = 125)]
        | cons p2 t2 =>
          have hshape : stringifyJFields ((k, v) :: p2 :: t2) ++ 125 :: rest
              = 34 :: (quoteBody k ++ 34 :: (58 :: (stringifyJV v ++
                  44 :: (stringifyJFields (p2 :: t2) ++ 125 :: rest)))) := by
            simp [stringifyJFields, quoteJStr, List.append_assoc]
          rw [hshape]
          simp only [parseJMembers]
          rw [skipJsonWs_nows 34 _ (by omega)]
          dsimp only
          rw [if_pos (rfl : (34 : Nat) = 34),
            parseJString_quoteBody k hwk _ _ (by
              simp only [List.length_append, List.length_cons]
              have := quoteBody_length_ge k
              omega)]
          dsimp only
          rw [skipJsonWs_nows 58 _ (by omega)]
          dsimp only
          rw [if_pos (rfl : (58 : Nat) = 58),
            ihv v (44 :: (stringifyJFields (p2 :: t2) ++ 125 :: rest)) hwv (by omega)
              (sepRest_ok 44 (by refine ⟨rfl, ?_, ?_, ?_⟩ <;> omega) _)]
          dsimp only
          rw [skipJsonWs_nows 44 _ (by omega)]
          dsimp only
          rw [if_pos (rfl : (44 : Nat) = 44),
            ihm (p2 :: t2) rest (by simp) hwf2 (by
              have : jmSize (p2 :: t2) ≤ m + 1 - 1 - jvSize v := by
                obtain ⟨k2, v2⟩ := p2
                simp only [jmSize] at hsz2 ⊢
                omega
              omega)]
          rfl
    · intro es rest hne hwf hsz
      cases es with
      | nil => exact absurd rfl hne
      | cons v es2 =>
        have hw2 : wfJV v = true ∧ wfJElems es2 = true := by
          simpa [wfJElems, Bool.and_eq_true] using hwf
        obtain ⟨hwv, hwe2⟩ := hw2
        have hsz2 : 1 + jvSize v + jeSize es2 ≤ m + 1 := by simpa [jeSize] using hsz
        cases es2 with
        | nil =>
          have hshape : stringifyJElems [v] ++ 93 :: rest
              = stringifyJV v ++ 93 :: rest := by
            simp [stringifyJElems]
          rw [hshape]
          simp only [parseJElems]
          rw [ihv v (93 :: rest) hwv (by omega)
            (sepRest_ok 93 (by refine ⟨rfl, ?_, ?_, ?_⟩ <;> omega) rest)]
          dsimp only
          rw [skipJsonWs_nows 93 _ (by omega)]
          dsimp only
          rw [if_neg (by omega : ¬(93 : Nat) = 44), if_pos (rfl : (93 : Nat) = 93)]
        | cons v2 t2 =>
          have hshape : stringifyJElems (v :: v2 :: t2) ++ 93 :: rest
              = stringifyJV v ++ 44 :: (stringifyJElems (v2 :: t2) ++ 93 :: rest) := by
            simp [stringifyJElems, List.append_assoc]
          rw [hshape]
          simp only [parseJElems]
          rw [ihv v (44 :: (stringifyJElems (v2 :: t2) ++ 93 :: rest)) hwv (by omega)
            (sepRest_ok 44 (by refine ⟨rfl, ?_, ?_, ?_⟩ <;> omega) _)]
          dsimp only
          rw [skipJsonWs_nows 44 _ (by omega)]
          dsimp only
          rw [if_pos (rfl : (44 : Nat) = 44),
            ihe (v2 :: t2) rest (by simp) hwe2 (by simp only [jeSize] at hsz2 ⊢; omega)]
          rfl

/-- `JSON.parse` inverts `JSON.stringify` on well-formed modelled
values. -/
theorem jsonParse_stringify (v : JValue) (hwf : wfJV v = true) :
    jsonParse (stringifyJV v) = some v := by
  unfold jsonParse
  have h := (parseJ_stringify ((stringifyJV v).length + 1)).1 v [] hwf
    (le_trans (jvSize_le v) (by omega)) (by intro r hr; simp at hr)
  rw [List.append_nil] at h
  rw [h]
  rfl

/-! ## C9 — state shape layer -/

mutual

/-- Decoding a serialized node restores the node. -/
theorem nodeOfJV_jvOfNode : ∀ n : SNode, nodeOfJV (jvOfNode n) = some n
  | .mk note color ch => by
    simp only [jvOfNode, nodeOfJV]
    rw [if_pos ⟨trivial, trivial⟩, childrenOfJV_jvOfChildren ch]
    rfl

/-- Decoding serialized children restores the children. -/
theorem childrenOfJV_jvOfChildren : ∀ ch : List (JsStr × SNode),
    childrenOfJV (jvOfChildren ch) = some ch
  | [] => rfl
  | (k, n) :: rest => by
    simp only [jvOfChildren, childrenOfJV]
    rw [nodeOfJV_jvOfNode n, childrenOfJV_jvOfChildren rest]

end

/-- Decoding the serialized state restores the state. -/
theorem stateOfJV_jvOfState (st : PState) : stateOfJV (jvOfState st) = some st := by
  obtain ⟨net, p, tree⟩ := st
  simp only [jvOfState, stateOfJV]
  rw [if_pos ⟨trivial, trivial, trivial⟩, childrenOfJV_jvOfChildren tree]
  rfl

mutual

/-- A well-formed node serializes to a well-formed JSON value. -/
theorem wfJV_jvOfNode : ∀ n : SNode, wfNode n = true → wfJV (jvOfNode n) = true
  | .mk note color ch, h => by
    simp only [wfNode, Bool.and_eq_true, decide_eq_true_eq] at h
    obtain ⟨⟨⟨hn, hc⟩, hch⟩, _⟩ := h
    have h1 : wfStr (js "_note") = true := by decide
    have h2 : wfStr (js "_color") = true := by decide
    show wfJFields ((js "_note", JValue.str note) :: (js "_color", JValue.str color)
      :: jvOfChildren ch) = true
    simp [wfJFields, wfJV, hn, hc, h1, h2, wfJFields_jvOfChildren ch hch]

/-- Well-formed children serialize to well-formed members. -/
theorem wfJFields_jvOfChildren : ∀ ch : List (JsStr × SNode),
    wfChildren ch = true → wfJFields (jvOfChildren ch) = true
  | [], _ => rfl
  | (k, n) :: rest, h => by
    simp only [wfChildren, Bool.and_eq_true, decide_eq_true_eq] at h
    obtain ⟨⟨⟨⟨hk, _⟩, _⟩, hn⟩, hrest⟩ := h
    simp only [jvOfChildren, wfJFields, Bool.and_eq_true]
    exact ⟨⟨hk, wfJV_jvOfNode n hn⟩, wfJFields_jvOfChildren rest hrest⟩

end

/-- A well-formed state serializes to a well-formed JSON value. -/
theorem wfJV_jvOfState (st : PState) (h : wfState st = true) :
    wfJV (jvOfState st) = true := by
  unfold wfState at h
  simp only [Bool.and_eq_true, decide_eq_true_eq] at h
  obtain ⟨⟨⟨hnet, _⟩, htree⟩, _⟩ := h
  have h1 : wfStr (js "network") = true := by decide
  have h2 : wfStr (js "prefix") = true := by decide
  have h3 : wfStr (js "tree") = true := by decide
  show wfJFields [(js "network", JValue.str st.network), (js "prefix", JValue.num st.prefixLen),
    (js "tree", JValue.obj (jvOfChildren st.tree))] = true
  simp [wfJFields, wfJV, hnet, h1, h2, h3, wfJFields_jvOfChildren st.tree htree]

/-! ## C9 — the serialized text is well-formed UTF-16 -/

/-- A string without surrogates and above-BMP units is well-formed. -/
theorem wfU_of_nosur : ∀ s : JsStr,
    (∀ c ∈ s, c < 65536 ∧ ¬(0xD800 ≤ c ∧ c < 0xE000)) → wfU s = true
  | [], _ => rfl
  | c :: rest, h => by
    have hc := h c (by simp)
    rw [wfU.eq_def]
    dsimp only
    rw [if_neg (by omega)]
    simp only [Bool.and_eq_true, decide_eq_true_eq]
    exact ⟨⟨hc.1, by omega⟩, wfU_of_nosur rest (fun x hx => h x (by simp [hx]))⟩

/-- Concatenation preserves UTF-16 well-formedness. -/
theorem wfU_append : ∀ (a b : JsStr), wfU a = true → wfU b = true →
    wfU (a ++ b) = true
  | [], b, _, hb => hb
  | c :: rest, b, ha, hb => by
    rw [wfU.eq_def] at ha
    dsimp only at ha
    by_cases hhi : 0xD800 ≤ c ∧ c < 0xDC00
    · rw [if_pos hhi] at ha
      cases rest with
      | nil => simp at ha
      | cons c2 rest2 =>
        simp only [Bool.and_eq_true, decide_eq_true_eq] at ha
        obtain ⟨hc2, hrest⟩ := ha
        rw [List.cons_append, List.cons_append, wfU.eq_def]
        dsimp only
        rw [if_pos hhi]
        simp only [Bool.and_eq_true, decide_eq_true_eq]
        exact ⟨hc2, wfU_append rest2 b hrest hb⟩
    · rw [if_neg hhi] at ha
      simp only [Bool.and_eq_true, decide_eq_true_eq] at ha
      obtain ⟨hc, hrest⟩ := ha
      rw [List.cons_append, wfU.eq_def]
      dsimp only
      rw [if_neg hhi]
      simp only [Bool.and_eq_true, decide_eq_true_eq]
      exact ⟨hc, wfU_append rest b hrest hb⟩

/-- Every escaped unit is well-formed UTF-16. -/
theorem wfU_escUnit (c : Nat) (hc : c < 65536) : wfU (escUnit c) = true := by
  unfold escUnit
  have hlo : ∀ d, d < 16 → hexLoChar d < 128 := by
    intro d hd
    unfold hexLoChar
    split_ifs <;> omega
  split_ifs with h34 h92 h8 h9 h10 h12 h13 hctl hsur
  · decide
  · decide
  · decide
  · decide
  · decide
  · decide
  · decide
  · refine wfU_of_nosur _ ?_
    intro x hx
    simp only [List.mem_cons, List.not_mem_nil, or_false] at hx
    have h1 := hlo (c / 16) (by omega)
    have h2 := hlo (c % 16) (by omega)
    rcases hx with rfl | rfl | rfl | rfl | rfl | rfl <;> omega
  · refine wfU_of_nosur _ ?_
    intro x hx
    simp only [List.mem_cons, List.not_mem_nil, or_false] at hx
    have h1 := hlo (c / 4096) (by omega)
    have h2 := hlo (c / 256 % 16) (by omega)
    have h3 := hlo (c / 16 % 16) (by omega)
    have h4 := hlo (c % 16) (by omega)
    rcases hx with rfl | rfl | rfl | rfl | rfl | rfl <;> omega
  · refine wfU_of_nosur _ ?_
    intro x hx
    simp only [List.mem_cons, List.not_mem_nil, or_false] at hx
    rcases hx with rfl
    exact ⟨hc, by omega⟩

/-- The quoted body of a UTF-16 string is well-formed UTF-16. -/
theorem wfU_quoteBody : ∀ s : JsStr, wfStr s = true → wfU (quoteBody s) = true
  | [], _ => rfl
  | [c], hw => by
    simp only [quoteBody]
    exact wfU_escUnit c ((wfStr_cons c []).mp hw).1
  | c :: c2 :: rest2, hw => by
    have hc : c < 65536 := ((wfStr_cons c (c2 :: rest2)).mp hw).1
    have hw2 : wfStr (c2 :: rest2) = true := ((wfStr_cons c (c2 :: rest2)).mp hw).2
    have hwr : wfStr rest2 = true := ((wfStr_cons c2 rest2).mp hw2).2
    simp only [quoteBody]
    split_ifs with hp
    · rw [wfU.eq_def]
      dsimp only
      rw [if_pos (by omega : 0xD800 ≤ c ∧ c < 0xDC00)]
      simp only [Bool.and_eq_true, decide_eq_true_eq]
      exact ⟨by omega, wfU_quoteBody rest2 hwr⟩
    · exact wfU_append _ _ (wfU_escUnit c hc) (wfU_quoteBody (c2 :: rest2) hw2)

/-- The full quoting of a UTF-16 string is well-formed UTF-16. -/
theorem wfU_quoteJStr (s : JsStr) (hw : wfStr s = true) :
    wfU (quoteJStr s) = true := by
  show wfU ([34] ++ (quoteBody s ++ [34])) = true
  exact wfU_append _ _ (by decide) (wfU_append _ _ (wfU_quoteBody s hw) (by decide))

/-- The decimal rendering is ASCII. -/
theorem toDecStr_ascii (n : Nat) : wfU (toDecStr n) = true := by
  refine wfU_of_nosur _ ?_
  intro c hcm
  unfold toDecStr at hcm
  by_cases h0 : n = 0
  · rw [if_pos h0] at hcm
    simp at hcm
    omega
  · rw [if_neg h0] at hcm
    obtain ⟨d, hd, rfl⟩ := List.mem_map.mp hcm
    have := digitsLE_lt 10 (by norm_num) n n d (List.mem_reverse.mp hd)
    omega

mutual

/-- Serialized values are well-formed UTF-16. -/
theorem wfU_stringifyJV : ∀ v : JValue, wfJV v = true →
    wfU (stringifyJV v) = true
  | .str s, h => wfU_quoteJStr s (by simpa [wfJV] using h)
  | .num n, _ => toDecStr_ascii n
  | .jtrue, _ => by decide
  | .jfalse, _ => by decide
  | .jnull, _ => by decide
  | .obj fs, h => by
    show wfU ([123] ++ (stringifyJFields fs ++ [125])) = true
    exact wfU_append _ _ (by decide)
      (wfU_append _ _ (wfU_stringifyJFields fs (by simpa [wfJV] using h)) (by decide))
  | .arr es, h => by
    show wfU ([91] ++ (stringifyJElems es ++ [93])) = true
    exact wfU_append _ _ (by decide)
      (wfU_append _ _ (wfU_stringifyJElems es (by simpa [wfJV] using h)) (by decide))

/-- Serialized members are well-formed UTF-16. -/
theorem wfU_stringifyJFields : ∀ fs : List (JsStr × JValue), wfJFields fs = true →
    wfU (stringifyJFields fs) = true
  | [], _ => rfl
  | [(k, v)], h => by
    have hw : wfStr k = true ∧ wfJV v = true := by
      simpa [wfJFields, Bool.and_eq_true] using h
    show wfU (quoteJStr k ++ ([58] ++ stringifyJV v)) = true
    exact wfU_append _ _ (wfU_quoteJStr k hw.1)
      (wfU_append _ _ (by decide) (wfU_stringifyJV v hw.2))
  | (k, v) :: (k2, v2) :: t2, h => by
    have hw : wfStr k = true ∧ wfJV v = true ∧ wfJFields ((k2, v2) :: t2) = true := by
      simpa [wfJFields, Bool.and_eq_true, and_assoc] using h
    have hshape : stringifyJFields ((k, v) :: (k2, v2) :: t2)
        = quoteJStr k ++ ([58] ++ (stringifyJV v
          ++ ([44] ++ stringifyJFields ((k2, v2) :: t2)))) := by
      simp [stringifyJFields]
    rw [hshape]
    exact wfU_append _ _ (wfU_quoteJStr k hw.1)
      (wfU_append _ _ (by decide) (wfU_append _ _ (wfU_stringifyJV v hw.2.1)
        (wfU_append _ _ (by decide) (wfU_stringifyJFields ((k2, v2) :: t2) hw.2.2))))

/-- Serialized elements are well-formed UTF-16. -/
theorem wfU_stringifyJElems : ∀ es : List JValue, wfJElems es = true →
    wfU (stringifyJElems es) = true
  | [], _ => rfl
  | [v], h => wfU_stringifyJV v (by simpa [wfJElems, Bool.and_eq_true] using h)
  | v :: v2 :: t2, h => by
    have hw : wfJV v = true ∧ wfJElems (v2 :: t2) = true := by
      simpa [wfJElems, Bool.and_eq_true] using h
    show wfU (stringifyJV v ++ ([44] ++ stringifyJElems (v2 :: t2))) = true
    exact wfU_append _ _ (wfU_stringifyJV v hw.1)
      (wfU_append _ _ (by decide) (wfU_stringifyJElems (v2 :: t2) hw.2))

end

/-- C9: for every well-formed persisted state — genuine UTF-16 strings, a
representable prefix number, a real-object tree with arbitrary note/color
strings — decoding the hash text produced by `saveState`'s
`btoa(encodeURIComponent(JSON.stringify(state)))` through `loadState`'s
`JSON.parse(decodeURIComponent(atob(hash)))` reproduces an equal state:
network string, prefix number and the full nested tree are recovered with
structural equality. -/
theorem c9_save_load_roundtrip (st : PState) (h : wfState st = true) :
    (saveStateText st).bind loadStateOf = some st := by
  have hwfj : wfJV (jvOfState st) = true := wfJV_jvOfState st h
  have hwfu : wfU (stringifyJV (jvOfState st)) = true := wfU_stringifyJV _ hwfj
  obtain ⟨e, he, hbytes, hdec⟩ :=
    encode_decode (stringifyJV (jvOfState st)).length (stringifyJV (jvOfState st))
      le_rfl hwfu
  obtain ⟨t, hbt, hat⟩ := atob_btoa e hbytes
  unfold saveStateText
  rw [he]
  simp only [Option.some_bind]
  rw [hbt]
  simp only [Option.some_bind]
  unfold loadStateOf
  rw [hat]
  simp only [Option.some_bind]
  unfold decodeURIComp
  rw [hdec e.length le_rfl]
  simp only [Option.some_bind]
  rw [jsonParse_stringify _ hwfj]
  simp only [Option.some_bind]
  exact stateOfJV_jvOfState st

/-- C9 witness: the round trip applied to a small concrete state. -/
theorem c9_save_load_roundtrip_witness :
    wfState (PState.mk (js "2001:db8::") 32
      [(js "2001:db8::/36", SNode.mk (js "Data Center") (js "#FF0000") [])]) = true ∧
    (saveStateText (PState.mk (js "2001:db8::") 32
      [(js "2001:db8::/36", SNode.mk (js "Data Center") (js "#FF0000") [])])).bind
        loadStateOf
      = some (PState.mk (js "2001:db8::") 32
      [(js "2001:db8::/36", SNode.mk (js "Data Center") (js "#FF0000") [])]) :=
  ⟨by decide, c9_save_load_roundtrip _ (by decide)⟩

end IPv6Plan
